import Mathlib

/-!
# Verification of the gratitude journal core

A shallow embedding of the persisted entry store, its analytics
(streaks, frequency counts) and the CSV import/export codec, together
with proofs of the specified properties.

JavaScript strings are modelled as lists of characters, and the
persisted object mapping date keys to entry arrays is modelled as an
association list in insertion order.  JavaScript object enumeration
order (array-index keys first, in ascending numeric order, then string
keys in insertion order) is modelled explicitly by `objOrder`, and
prototype-chain property lookup on plain objects (keys inherited from
`Object.prototype`, such as `toString` or `__proto__`) is modelled
explicitly where it changes behavior (`objProtoNames`, `addEntryP`)
and excluded by hypothesis elsewhere.
-/

set_option maxHeartbeats 1000000

/-- JavaScript strings as lists of characters. -/
abbrev Str : Type := List Char

/-- The persisted mapping from date key to list of entry texts
(`getAllEntries` shape), as an insertion-ordered association list. -/
abbrev Store : Type := List (Str × List Str)

/-- The set of characters removed by JavaScript `String.prototype.trim`
(WhiteSpace and LineTerminator code points). -/
def isJsWs (c : Char) : Bool :=
  c.toNat = 9 || c.toNat = 10 || c.toNat = 11 || c.toNat = 12 || c.toNat = 13 ||
  c.toNat = 32 || c.toNat = 160 || c.toNat = 0x1680 ||
  (0x2000 ≤ c.toNat && c.toNat ≤ 0x200A) ||
  c.toNat = 0x2028 || c.toNat = 0x2029 || c.toNat = 0x202F || c.toNat = 0x205F ||
  c.toNat = 0x3000 || c.toNat = 0xFEFF

/-- JavaScript `String.prototype.trim`. -/
def trimCh (s : Str) : Str :=
  ((s.dropWhile isJsWs).reverse.dropWhile isJsWs).reverse

/-- JavaScript `String.prototype.split` with a single-character
separator: splits at every occurrence of the separator. -/
def splitCh (sep : Char) : Str → List Str
  | [] => [[]]
  | c :: rest =>
    if c = sep then [] :: splitCh sep rest
    else
      match splitCh sep rest with
      | s :: ss => (c :: s) :: ss
      | [] => [[c]]

/-- First-match association lookup: the meaning of `obj[key]` reads at
own keys of a plain object.  A key with no own binding may still find a
truthy value inherited from `Object.prototype` (see `objProtoNames`);
where that changes behavior it is modelled explicitly (`addEntryP`) or
excluded by hypothesis. -/
def alookup {α : Type} : List (Str × α) → Str → Option α
  | [], _ => none
  | (k, v) :: rest, key => if k = key then some v else alookup rest key

/-- `getEntriesByDate` from `storage.js`: `entries[dateKey] || []`. -/
def getEntriesByDate (st : Store) (dateKey : Str) : List Str :=
  (alookup st dateKey).getD []

/-- Append a value to the list held at the (first occurrence of the)
given key; the meaning of `entries[key].push(item)`. -/
def appendAt : Store → Str → Str → Store
  | [], _, _ => []
  | (k, l) :: rest, key, item =>
    if k = key then (k, l ++ [item]) :: rest
    else (k, l) :: appendAt rest key item

/-- `if (!entries[key]) entries[key] = []; entries[key].push(item)` on
the own-key path (no truthy value inherited from `Object.prototype`):
append under an existing key, or create the key at the end.  The
inherited-key path, on which the source throws, is modelled by
`addEntryP`. -/
def pushEntry (st : Store) (key item : Str) : Store :=
  match alookup st key with
  | some _ => appendAt st key item
  | none => st ++ [(key, [item])]

/-- `addEntry` from `storage.js` on keys with no inherited binding:
reject blank text, otherwise push the trimmed text under the key and
persist.  The returned store is the mapping passed to `saveEntries`
(unchanged when the result is `false`, since the function returns
before writing).  `addEntryP` extends this model with the exception the
source throws at `Object.prototype` property names. -/
def addEntry (st : Store) (dateKey item : Str) : Bool × Store :=
  if trimCh item = [] then (false, st)
  else (true, pushEntry st dateKey (trimCh item))

/-- The own property names of `Object.prototype` (ECMAScript, with the
Annex B legacy accessors present in every browser engine).  On a plain
object, a read at any of these keys with no own binding finds the
inherited value — a function, or `Object.prototype` itself for the
`__proto__` accessor — which is truthy and is not an array. -/
def objProtoNames : List Str :=
  ["constructor".data, "hasOwnProperty".data, "isPrototypeOf".data,
   "propertyIsEnumerable".data, "toLocaleString".data, "toString".data,
   "valueOf".data, "__defineGetter__".data, "__defineSetter__".data,
   "__lookupGetter__".data, "__lookupSetter__".data, "__proto__".data]

/-- `addEntry` from `storage.js` with prototype-chain lookup modelled in
full.  For a key named after an inherited `Object.prototype` property
and absent as an own key, `if (!entries[dateKey])` sees the truthy
inherited value and skips the array creation, so
`entries[dateKey].push(...)` throws a TypeError (neither a function nor
`Object.prototype` has `push`); the write never happens.  On every
other key the behavior is that of `addEntry`. -/
def addEntryP (st : Store) (dateKey item : Str) : Except Str (Bool × Store) :=
  if trimCh item = [] then Except.ok (false, st)
  else
    match alookup st dateKey with
    | some _ => Except.ok (true, pushEntry st dateKey (trimCh item))
    | none =>
      if dateKey ∈ objProtoNames then Except.error "TypeError".data
      else Except.ok (true, pushEntry st dateKey (trimCh item))

/-- Replace the element at an index of the list held at the given key;
the meaning of `entries[key][index] = v`. -/
def setEntryAt : Store → Str → Nat → Str → Store
  | [], _, _, _ => []
  | (k, l) :: rest, key, i, v =>
    if k = key then (k, l.set i v) :: rest
    else (k, l) :: setEntryAt rest key i v

/-- `updateEntry` from `storage.js`: reject blank replacement text,
missing key, or out-of-range index; otherwise replace in place and
persist.  The index is an integer as in JavaScript, so negative values
are representable and rejected.  Unlike `addEntry`, the source also
guards with `!Array.isArray(entries[dateKey])`, so a key whose only
binding is inherited from `Object.prototype` (a non-array) returns
`false` exactly like a missing key — this model is faithful for every
string key. -/
def updateEntry (st : Store) (dateKey : Str) (index : Int) (newText : Str) :
    Bool × Store :=
  if trimCh newText = [] then (false, st)
  else
    match alookup st dateKey with
    | none => (false, st)
    | some l =>
      if index < 0 ∨ (l.length : Int) ≤ index then (false, st)
      else (true, setEntryAt st dateKey index.toNat (trimCh newText))

/-- `getTotalEntryCount` from `storage.js`. -/
def getTotalEntryCount (st : Store) : Nat :=
  (st.map (fun p => p.2.length)).sum

/-- `entries[k] && entries[k].length > 0`: the key is present with a
non-empty entry list. -/
def hasEntriesOn (st : Store) (k : Str) : Bool :=
  match alookup st k with
  | some l => decide (0 < l.length)
  | none => false

/-- The regular expression test for the canonical date key shape:
four digits, dash, two digits, dash, two digits, and nothing else.
No calendar-validity check. -/
def isDateShape : Str → Bool
  | [y1, y2, y3, y4, h1, m1, m2, h2, d1, d2] =>
    y1.isDigit && y2.isDigit && y3.isDigit && y4.isDigit &&
    h1 = '-' && m1.isDigit && m2.isDigit && h2 = '-' &&
    d1.isDigit && d2.isDigit
  | _ => false

/-- One concrete non-date key used to exhibit that the write interface
does not validate keys. -/
def notADateKey : Str := "not-a-date".data

/-- Numeric value of a digit string. -/
def digitsVal : Str → Nat
  | [] => 0
  | c :: rest => (c.toNat - 48) * 10 ^ rest.length + digitsVal rest

/-- ECMAScript array-index property key: the canonical decimal string of
an integer below 2^32 - 1 (all digits, no leading zero except "0"). -/
def isIndexKey (s : Str) : Bool :=
  decide (s ≠ []) && s.all Char.isDigit &&
  (decide (s = ['0']) || decide (s.headI ≠ '0')) &&
  decide (digitsVal s < 4294967295)

/-- Ascending insertion by numeric key value (for array-index keys). -/
def insertIdx {α : Type} (p : Str × α) : List (Str × α) → List (Str × α)
  | [] => [p]
  | q :: rest =>
    if digitsVal q.1 ≤ digitsVal p.1 then q :: insertIdx p rest
    else p :: q :: rest

/-- Sort an association list ascending by numeric key value. -/
def sortIdx {α : Type} : List (Str × α) → List (Str × α)
  | [] => []
  | p :: rest => insertIdx p (sortIdx rest)

/-- ECMAScript own-property enumeration order for `Object.keys`,
`Object.values` and `Object.entries`: array-index keys first in
ascending numeric order, then the remaining string keys in insertion
order. -/
def objOrder {α : Type} (l : List (Str × α)) : List (Str × α) :=
  sortIdx (l.filter (fun p => isIndexKey p.1)) ++
    l.filter (fun p => !isIndexKey p.1)

/-- Double every double quote, as in `replace(/"/g, '""')`. -/
def dupQuotes : Str → Str
  | [] => []
  | c :: rest => if c = '"' then '"' :: '"' :: dupQuotes rest else c :: dupQuotes rest

/-- CSV cell escaping from `exportToCSV`: wrap in double quotes (with
internal quotes doubled) exactly when the cell contains a comma, a
double quote or a newline. -/
def escapeCell (c : Str) : Str :=
  if c.contains ',' || c.contains '"' || c.contains '\n' then
    '"' :: dupQuotes c ++ ['"']
  else c

/-- The rows built by `exportToCSV`: a header row, then one row per
(date, entry) pair in object enumeration order, date-major. -/
def exportRows (st : Store) : List (List Str) :=
  ["Date".data, "Gratitude Entry".data] ::
    (objOrder st).flatMap (fun p => p.2.map (fun it => [p.1, it]))

/-- `exportToCSV` (the CSV text; the download trigger is view glue):
escape each cell, join cells with commas and rows with newlines. -/
def exportToCSV (st : Store) : Str :=
  List.intercalate ['\n']
    ((exportRows st).map (fun row => List.intercalate [','] (row.map escapeCell)))

/-- The character loop of `parseCSVLine`: `skip` records that the
previous step already consumed this character (the `i++` of an escaped
quote), `inQ` is the in-quotes flag, `cur` the field being accumulated,
`acc` the fields already produced.  A quote inside quotes followed by
another quote is an escaped literal quote; otherwise a quote toggles
the in-quotes mode; a comma outside quotes ends the field. -/
def parseLineAux : Str → Bool → Bool → Str → List Str → List Str
  | [], _, _, cur, acc => acc ++ [cur]
  | c :: rest, skip, inQ, cur, acc =>
    if skip then parseLineAux rest false inQ cur acc
    else if c = '"' then
      if inQ then
        match rest.head? with
        | some '"' => parseLineAux rest true inQ (cur ++ ['"']) acc
        | _ => parseLineAux rest false false cur acc
      else parseLineAux rest false true cur acc
    else if c = ',' ∧ inQ = false then parseLineAux rest false inQ [] (acc ++ [cur])
    else parseLineAux rest false inQ (cur ++ [c]) acc

/-- `parseCSVLine`: split one line into fields honoring quoting. -/
def parseCSVLine (line : Str) : List Str :=
  parseLineAux line false false [] []

/-- The body of the `parseCSV` line loop: skip blank lines, parse the
line into fields, and accept the row only when it has at least two
fields, both trimmed fields are non-empty and the trimmed date field
has the canonical shape. -/
def parseStep (st : Store) (rawLine : Str) : Store :=
  let line := trimCh rawLine
  if line = [] then st
  else
    let row := parseCSVLine line
    if 2 ≤ row.length then
      let date := trimCh (row.getD 0 [])
      let item := trimCh (row.getD 1 [])
      if date ≠ [] ∧ item ≠ [] then
        if isDateShape date then pushEntry st date item else st
      else st
    else st

/-- `parseCSV`: split the content on newlines, skip the header row
(line 0 is never data), and fold the accepted rows into a mapping. -/
def parseCSV (content : Str) : Store :=
  ((splitCh '\n' content).drop 1).foldl parseStep []

/-- Merging one imported date into the store (`mergeEntries` body):
when the date already exists, append each imported item unless its
exact string is already in the list at that moment; otherwise the
imported list becomes the date's list. -/
def mergeOne (st : Store) (p : Str × List Str) : Store :=
  match alookup st p.1 with
  | some _ =>
    p.2.foldl
      (fun m it => if (getEntriesByDate m p.1).contains it then m else appendAt m p.1 it)
      st
  | none => st ++ [(p.1, p.2)]

/-- `mergeEntries` from `storage.js`: fold every imported date (in
object enumeration order) into a copy of the existing store. -/
def mergeEntries (existing imported : Store) : Store :=
  (objOrder imported).foldl mergeOne existing

/-- The imported-count computation of `importFromCSV`: the sum of the
per-date list lengths of the parsed mapping, i.e. the number of
accepted rows of the file. -/
def countRows (imported : Store) : Nat :=
  ((objOrder imported).map (fun p => p.2.length)).sum

/-- `importFromCSV` on already-read file content: fail when the parsed
mapping has no dates (the store is then never written); otherwise merge
into the existing store, persist the merged mapping (the returned
store) and report the accepted-row count. -/
def importFromCSV (content : Str) (st : Store) : Except Str (Nat × Store) :=
  let imported := parseCSV content
  if imported.length = 0 then Except.error "No valid entries found in CSV file".data
  else Except.ok (countRows imported, mergeEntries st imported)

/-- Sequential exact-match deduplicating append, the specified meaning
of merging one imported list into an existing list: each item is
skipped exactly when its exact string is already present (in the
existing list or appended earlier). -/
def dedupAppend (l items : List Str) : List Str :=
  items.foldl (fun acc it => if acc.contains it then acc else acc ++ [it]) l

/-- The specified acceptance condition for a single raw line of an
imported file: after trimming, the line is non-blank, splits into at
least two fields, both the trimmed date and entry fields are non-empty,
and the trimmed date field has the canonical shape; the accepted pair
is the pair of trimmed fields. -/
def rowAccept (rawLine : Str) : Option (Str × Str) :=
  let line := trimCh rawLine
  if line = [] then none
  else
    let row := parseCSVLine line
    if 2 ≤ row.length ∧ trimCh (row.getD 0 []) ≠ [] ∧ trimCh (row.getD 1 []) ≠ [] ∧
        isDateShape (trimCh (row.getD 0 [])) = true then
      some (trimCh (row.getD 0 []), trimCh (row.getD 1 []))
    else none

/-- A store holding one entry, used for the import-count scenario. -/
def c4store : Store := [("2025-01-01".data, ["a".data])]

/-- File content with two accepted rows, one of which duplicates an
existing entry. -/
def c4content : Str := "Date,Gratitude Entry\n2025-01-01,a\n2025-01-01,b".data

/-- The store exhibiting that an entry containing a newline does not
survive the export/import round trip. -/
def c1cexStore : Store := [("2025-01-01".data, ["a\nb".data])]

/-- A calendar date as year/month/day (1-based month), the relevant
state of a JS `Date` at local midnight. -/
structure Date where
  y : Nat
  m : Nat
  d : Nat
deriving DecidableEq, Repr

/-- Gregorian leap-year rule (JS `Date` uses the proleptic Gregorian
calendar). -/
def isLeap (y : Nat) : Bool := (y % 4 = 0 && y % 100 != 0) || y % 400 = 0

/-- Days in a month (1-based) from a leap flag; 0 for the unused
month 0. -/
def daysInMonthB (leap : Bool) (m : Nat) : Nat :=
  if m = 0 then 0
  else if m = 2 then (if leap then 29 else 28)
  else if m = 4 then 30 else if m = 6 then 30 else if m = 9 then 30
  else if m = 11 then 30
  else 31

/-- Days in a month of a year, 1-based. -/
def daysInMonth (y m : Nat) : Nat := daysInMonthB (isLeap y) m

/-- `setDate(getDate() - 1)`: the previous calendar day. -/
def prevDay : Date → Date
  | ⟨y, m, d⟩ =>
    if 1 < d then ⟨y, m, d - 1⟩
    else if 1 < m then ⟨y, m - 1, daysInMonth y (m - 1)⟩
    else ⟨y - 1, 12, 31⟩

/-- Iterated previous day. -/
def prevIter : Nat → Date → Date
  | 0, dt => dt
  | n + 1, dt => prevIter n (prevDay dt)

/-- `String(n).padStart(2, '0')`. -/
def pad2 (n : Nat) : Str :=
  if n < 10 then '0' :: (Nat.repr n).data else (Nat.repr n).data

/-- `formatDate` from `dateUtils.js`: `${year}-${month}-${day}` with the
month and day two-digit padded (the year is not padded). -/
def formatDate (dt : Date) : Str :=
  (Nat.repr dt.y).data ++ '-' :: (pad2 dt.m ++ '-' :: pad2 dt.d)

/-- The backward `while (true)` loop of `calculateStreak`, with explicit
fuel standing in for the unbounded loop: it counts consecutive days
with at least one entry, walking backward one day per step and stopping
at the first day with none.  A result strictly below the fuel is
exactly the value the unbounded loop computes (the loop ended at a
day without entries, not by exhausting fuel). -/
def streakLoop (entries : Store) : Nat → Date → Nat
  | 0, _ => 0
  | fuel + 1, dt =>
    if hasEntriesOn entries (formatDate dt) then
      streakLoop entries fuel (prevDay dt) + 1
    else 0

/-- `calculateStreak` with "today" threaded as a parameter (the source
reads the wall clock): the streak starts at 1 from today when today has
entries, otherwise at 0, and the backward scan starts at yesterday. -/
def calculateStreak (entries : Store) (today : Date) (fuel : Nat) : Nat :=
  if hasEntriesOn entries (formatDate today) then
    streakLoop entries fuel (prevDay today) + 1
  else
    streakLoop entries fuel (prevDay today)

/-- Entries exactly on 2025-01-01, 2025-01-02 and 2025-01-03. -/
def c2store : Store :=
  [("2025-01-01".data, ["a".data]), ("2025-01-02".data, ["b".data]),
   ("2025-01-03".data, ["c".data])]

/-- `entry.trim().toLowerCase()`: the normalized form used for
frequency counting.  `Char.toLower` agrees with the Unicode
default case conversion of `toLowerCase` on code points below 128, so
this model is faithful for ASCII entries; non-ASCII entries are
excluded by hypothesis wherever the model is used. -/
def normEntry (e : Str) : Str := (trimCh e).map Char.toLower

/-- Increment the count stored at the (first occurrence of the) key. -/
def incAt : List (Str × Nat) → Str → List (Str × Nat)
  | [], _ => []
  | (k, n) :: rest, key =>
    if k = key then (k, n + 1) :: rest else (k, n) :: incAt rest key

/-- `entryCounts[t] = (entryCounts[t] || 0) + 1` for keys with no
binding inherited from `Object.prototype`: increment an existing own
count or create the key (at the end, in insertion order) with count 1.
At a prototype-named key the source instead reads the truthy inherited
value — producing a corrupted non-numeric count, or, through the
`__proto__` setter, never creating an own property at all — so such
keys (see `objProtoNames`) are excluded by hypothesis wherever this
model is used. -/
def bump (counts : List (Str × Nat)) (t : Str) : List (Str × Nat) :=
  match alookup counts t with
  | some _ => incAt counts t
  | none => counts ++ [(t, 1)]

/-- The counting pass of `getMostFrequentEntries`: every stored entry,
in object enumeration order of the store and array order within each
date, normalized by trim + lowercase; empty normalized strings are
skipped. -/
def tally (st : Store) : List (Str × Nat) :=
  (objOrder st).foldl
    (fun counts p =>
      p.2.foldl
        (fun cs e => if normEntry e = [] then cs else bump cs (normEntry e)) counts)
    []

/-- Stable insertion for the count-descending sort: the new pair moves
past strictly greater counts only, so pairs earlier in the input stay
before later pairs with equal count. -/
def insertDesc (x : Str × Nat) : List (Str × Nat) → List (Str × Nat)
  | [] => [x]
  | y :: ys => if x.2 < y.2 then y :: insertDesc x ys else x :: y :: ys

/-- Stable sort by count descending, the behavior of the stable
`Array.prototype.sort` with comparator `(a, b) => b.count - a.count`. -/
def sortDesc : List (Str × Nat) → List (Str × Nat)
  | [] => []
  | x :: xs => insertDesc x (sortDesc xs)

/-- `getMostFrequentEntries`: tally the normalized entries, enumerate
the counts object (`Object.entries`), sort by count descending (stable)
and truncate to the limit (default 5). -/
def getMostFrequentEntries (st : Store) (limit : Nat := 5) : List (Str × Nat) :=
  (sortDesc (objOrder (tally st))).take limit

/-- Keep the first occurrence of each string, in order: the specified
"first-seen" key order of the counting pass. -/
def keepFirstsAux (seen : List Str) : List Str → List Str
  | [] => []
  | x :: xs =>
    if x ∈ seen then keepFirstsAux seen xs
    else x :: keepFirstsAux (seen ++ [x]) xs

/-- First occurrences of a list of strings, in encounter order. -/
def keepFirsts (l : List Str) : List Str := keepFirstsAux [] l

/-- The stream of non-empty normalized entries of a store, in counting
order: the specified domain of the frequency count. -/
def normStream (st : Store) : List Str :=
  (((objOrder st).map Prod.snd).flatten.map normEntry).filter (fun t => ¬ t = [])

/-- The frequency scenario store: entries "Coffee", "coffee " and
"Tea". -/
def coffeeStore : Store :=
  [("2025-01-01".data, ["Coffee".data, "coffee ".data, "Tea".data])]

/-- A store whose tied normalized entries include the array-index
string "7", exhibiting JS integer-key enumeration order. -/
def c9cexStore : Store :=
  [("2025-01-01".data, ["zebra".data, "zebra".data, "7".data, "7".data])]

/-- Number of leap years strictly before year `y` in the proleptic
Gregorian calendar (year 0 counts as leap). -/
def leapsBefore (y : Nat) : Nat := (y + 3) / 4 + (y + 399) / 400 - (y + 99) / 100

/-- Days before month `m` (1-based) in a year with the given leap flag. -/
def daysBeforeMonth (leap : Bool) : Nat → Nat
  | 0 => 0
  | m + 1 => daysBeforeMonth leap m + daysInMonthB leap m

/-- Days from the start of year 0 to the start of year `y`. -/
def daysBeforeYear (y : Nat) : Nat := 365 * y + leapsBefore y

/-- The proleptic-Gregorian day number of a date.  At a fixed UTC
offset, `new Date(key + 'T00:00:00').getTime()` is an affine function
of this number, so the source's `Math.floor((cur - prev) / 86400000)`
equals the difference of the two day numbers. -/
def toDays (dt : Date) : Nat :=
  daysBeforeYear dt.y + daysBeforeMonth (isLeap dt.y) dt.m + dt.d

/-- Value of a decimal digit character. -/
def digitVal (c : Char) : Nat := c.toNat - 48

/-- `new Date(key + 'T00:00:00')`: parsing succeeds exactly on
canonical-shape, calendar-valid keys; `none` is an Invalid Date. -/
def parseDateKey (s : Str) : Option Date :=
  if isDateShape s = true then
    let y := ((digitVal (s.getD 0 '0') * 10 + digitVal (s.getD 1 '0')) * 10
        + digitVal (s.getD 2 '0')) * 10 + digitVal (s.getD 3 '0')
    let m := digitVal (s.getD 5 '0') * 10 + digitVal (s.getD 6 '0')
    let d := digitVal (s.getD 8 '0') * 10 + digitVal (s.getD 9 '0')
    if 1 ≤ m ∧ m ≤ 12 ∧ 1 ≤ d ∧ d ≤ daysInMonth y m then some ⟨y, m, d⟩ else none
  else none

/-- `Math.floor((cur - prev) / 86400000)` on two parsed midnight dates;
`none` models the NaN of an Invalid Date, which fails the `=== 1`
test. -/
def dayDiff (a b : Str) : Option Int :=
  match parseDateKey a, parseDateKey b with
  | some x, some yv => some ((toDays yv : Int) - (toDays x : Int))
  | _, _ => none

/-- `a.localeCompare(b) < 0`, modeled as lexicographic order on the
character sequences (the two agree on canonical date keys). -/
def lexLt (a b : Str) : Bool := decide (a < b)

/-- Ascending insertion by `lexLt`. -/
def insertLex (s : Str) : List Str → List Str
  | [] => [s]
  | t :: ts => if lexLt t s then t :: insertLex s ts else s :: t :: ts

/-- `.sort((a, b) => a.localeCompare(b))`: sort ascending. -/
def sortLex : List Str → List Str
  | [] => []
  | s :: ss => insertLex s (sortLex ss)

/-- `Object.keys(entries).filter(date => entries[date] && Array.isArray
&& length > 0).sort(...)`: the dates with at least one entry, sorted
ascending. -/
def datesWithEntries (st : Store) : List Str :=
  sortLex (((objOrder st).map Prod.fst).filter (fun d => hasEntriesOn st d))

/-- The adjacent-pair loop of `calculateLongestStreak`: extend the
current streak when the day difference is exactly 1 (an Invalid Date
yields NaN and never equals 1), else reset it to 1; track the maximum,
which is updated only when extending. -/
def streakScan : Str → Nat → Nat → List Str → Nat
  | _, longest, _, [] => longest
  | prev, longest, cur, d :: rest =>
    if dayDiff prev d = some 1 then streakScan d (max longest (cur + 1)) (cur + 1) rest
    else streakScan d longest 1 rest

/-- `calculateLongestStreak` from `storage.js`. -/
def calculateLongestStreak (st : Store) : Nat :=
  match datesWithEntries st with
  | [] => 0
  | [_] => 1
  | d0 :: d1 :: rest => streakScan d0 1 1 (d1 :: rest)

/-- Day number of a valid key (the default never arises under the
validity hypotheses). -/
def dayNum (s : Str) : Int := (toDays ((parseDateKey s).getD ⟨0, 0, 0⟩) : Int)

/-- Length of the maximal one-apart chain at the front of a list of day
numbers. -/
def chainPrefixLen : List Int → Nat
  | [] => 0
  | [_] => 1
  | x :: y :: r => if y - x = 1 then chainPrefixLen (y :: r) + 1 else 1

/-- The specified longest-run length over a list of day numbers: the
length of the longest contiguous block in which every element is one
more than its predecessor. -/
def maxRunLen (l : List Int) : Nat := (l.tails.map chainPrefixLen).foldr max 0

/-- Length of the chain continuing a previous day number. -/
def contRun : Int → List Int → Nat
  | _, [] => 0
  | p, x :: xs => if x - p = 1 then contRun x xs + 1 else 0

/-- The maximum over runs seen by the scan, crediting `c` to a run that
continues the previous element. -/
def runPeak : Int → Nat → List Int → Nat
  | _, _, [] => 0
  | p, c, x :: xs =>
    if x - p = 1 then max (c + 1) (runPeak x (c + 1) xs) else max 1 (runPeak x 1 xs)

/-- The pure-integer form of the adjacent-pair loop. -/
def runScan : Int → Nat → Nat → List Int → Nat
  | _, longest, _, [] => longest
  | p, longest, cur, x :: xs =>
    if x - p = 1 then runScan x (max longest (cur + 1)) (cur + 1) xs
    else runScan x longest 1 xs

/-- Entries on 01-01, 01-02, 01-03 and 01-10 of the same year. -/
def c8store : Store :=
  [("2025-01-01".data, ["a".data]), ("2025-01-02".data, ["b".data]),
   ("2025-01-03".data, ["c".data]), ("2025-01-10".data, ["d".data])]

/-- The data lines of the exported text, in store order. -/
def dataLines (st : Store) : List Str :=
  st.flatMap (fun p => p.2.map (fun it => p.1 ++ ',' :: escapeCell it))

/-- The (date, entry) pairs of a store in iteration order. -/
def pairsOf (st : Store) : List (Str × Str) :=
  st.flatMap (fun p => p.2.map (fun it => (p.1, it)))

theorem alookup_nil {α : Type} (k : Str) : alookup ([] : List (Str × α)) k = none := rfl

theorem alookup_cons {α : Type} (k key : Str) (v : α) (rest : List (Str × α)) :
    alookup ((k, v) :: rest) key = if k = key then some v else alookup rest key := rfl

theorem alookup_append_left {α : Type} {l : List (Str × α)} (l2 : List (Str × α))
    {k : Str} {v : α} (h : alookup l k = some v) :
    alookup (l ++ l2) k = some v := by
  induction l with
  | nil => simp [alookup] at h
  | cons p rest ih =>
    obtain ⟨k1, v1⟩ := p
    by_cases hk : k1 = k
    · subst hk
      simp [alookup] at h ⊢
      exact h
    · simp [alookup, hk] at h ⊢
      exact ih h

theorem alookup_append_right {α : Type} {l : List (Str × α)} (l2 : List (Str × α))
    {k : Str} (h : alookup l k = none) :
    alookup (l ++ l2) k = alookup l2 k := by
  induction l with
  | nil => simp
  | cons p rest ih =>
    obtain ⟨k1, v1⟩ := p
    by_cases hk : k1 = k
    · subst hk; simp [alookup] at h
    · simp [alookup, hk] at h ⊢
      exact ih h

theorem alookup_appendAt_self {st : Store} {k : Str} {l : List Str}
    (h : alookup st k = some l) (item : Str) :
    alookup (appendAt st k item) k = some (l ++ [item]) := by
  induction st with
  | nil => simp [alookup] at h
  | cons p rest ih =>
    obtain ⟨k1, v1⟩ := p
    by_cases hk : k1 = k
    · subst hk
      simp [alookup] at h
      simp [appendAt, alookup, h]
    · simp [alookup, hk] at h
      simp [appendAt, alookup, hk]
      exact ih h

theorem alookup_appendAt_other {st : Store} {k k2 : Str} (hne : k2 ≠ k) (item : Str) :
    alookup (appendAt st k item) k2 = alookup st k2 := by
  induction st with
  | nil => simp [appendAt]
  | cons p rest ih =>
    obtain ⟨k1, v1⟩ := p
    by_cases hk : k1 = k
    · subst hk
      simp [appendAt, alookup, Ne.symm hne]
    · simp [appendAt, alookup, hk]
      split <;> simp [ih]

theorem alookup_pushEntry_self (st : Store) (k item : Str) :
    alookup (pushEntry st k item) k = some (getEntriesByDate st k ++ [item]) := by
  unfold pushEntry getEntriesByDate
  cases h : alookup st k with
  | some l => simpa [h] using alookup_appendAt_self h item
  | none =>
    rw [alookup_append_right _ h]
    simp [alookup, h]

theorem alookup_pushEntry_other (st : Store) {k k2 : Str} (hne : k2 ≠ k) (item : Str) :
    alookup (pushEntry st k item) k2 = alookup st k2 := by
  unfold pushEntry
  cases h : alookup st k with
  | some l => exact alookup_appendAt_other hne item
  | none =>
    cases h2 : alookup st k2 with
    | some l2 => exact alookup_append_left _ h2
    | none =>
      rw [alookup_append_right _ h2]
      simp [alookup, Ne.symm hne]

/-- C6: for every key and every text whose trimmed form is non-empty,
`add(key, text)` returns `true` and appends the trimmed text at the end
of the key's list (creating the list if the key was absent), so that
`getByDate(key)` immediately afterwards ends with the trimmed text;
lists of all other keys are unchanged. -/
theorem c6_add_appends (st : Store) (k t : Str) (h : trimCh t ≠ []) :
    (addEntry st k t).1 = true ∧
    getEntriesByDate (addEntry st k t).2 k = getEntriesByDate st k ++ [trimCh t] ∧
    (∀ k2, k2 ≠ k → getEntriesByDate (addEntry st k t).2 k2 = getEntriesByDate st k2) := by
  refine ⟨by simp [addEntry, h], ?_, ?_⟩
  · simp only [addEntry, if_neg h]
    simp [getEntriesByDate, alookup_pushEntry_self]
  · intro k2 hne
    simp only [addEntry, if_neg h]
    simp [getEntriesByDate, alookup_pushEntry_other st hne]

theorem c6_add_appends_witness :
    (addEntry [] "2025-01-01".data " hi ".data).1 = true ∧
    getEntriesByDate (addEntry [] "2025-01-01".data " hi ".data).2 "2025-01-01".data
      = getEntriesByDate ([] : Store) "2025-01-01".data ++ [trimCh " hi ".data] ∧
    (∀ k2, k2 ≠ "2025-01-01".data →
      getEntriesByDate (addEntry [] "2025-01-01".data " hi ".data).2 k2
        = getEntriesByDate ([] : Store) k2) :=
  c6_add_appends [] "2025-01-01".data " hi ".data (by decide)

/-- C7: validation failures are returned as `false` and leave the store
unchanged: `add` with text trimming to empty, and `update` with blank
replacement text, an absent key, or an index outside `[0, len)`. -/
theorem c7_validation_failures :
    (∀ (st : Store) (k t : Str), trimCh t = [] → addEntry st k t = (false, st)) ∧
    (∀ (st : Store) (k : Str) (i : Int) (nt : Str), trimCh nt = [] →
      updateEntry st k i nt = (false, st)) ∧
    (∀ (st : Store) (k : Str) (i : Int) (nt : Str), alookup st k = none →
      updateEntry st k i nt = (false, st)) ∧
    (∀ (st : Store) (k : Str) (i : Int) (nt : Str) (l : List Str),
      alookup st k = some l → (i < 0 ∨ (l.length : Int) ≤ i) →
      updateEntry st k i nt = (false, st)) := by
  refine ⟨?_, ?_, ?_, ?_⟩
  · intro st k t h; simp [addEntry, h]
  · intro st k i nt h; simp [updateEntry, h]
  · intro st k i nt h
    unfold updateEntry
    split
    · rfl
    · rw [h]
  · intro st k i nt l h hi
    unfold updateEntry
    split
    · rfl
    · rw [h]
      simp only [if_pos hi]

theorem c7_validation_failures_witness :
    addEntry [("2025-01-01".data, ["x".data])] "2025-01-01".data "   ".data
      = (false, [("2025-01-01".data, ["x".data])]) ∧
    updateEntry [("2025-01-01".data, ["x".data])] "2025-01-01".data 0 " ".data
      = (false, [("2025-01-01".data, ["x".data])]) ∧
    updateEntry [("2025-01-01".data, ["x".data])] "2025-01-02".data 0 "y".data
      = (false, [("2025-01-01".data, ["x".data])]) ∧
    updateEntry [("2025-01-01".data, ["x".data])] "2025-01-01".data 1 "y".data
      = (false, [("2025-01-01".data, ["x".data])]) :=
  ⟨c7_validation_failures.1 _ _ _ (by decide),
   c7_validation_failures.2.1 _ _ 0 _ (by decide),
   c7_validation_failures.2.2.1 _ _ 0 _ (by decide),
   c7_validation_failures.2.2.2 _ _ 1 _ ["x".data] (by decide) (by norm_num)⟩

/-- C10 as stated is false: `add` does not succeed for every string
key whatsoever.  For a key named after an inherited `Object.prototype`
property, such as `"toString"`, that is absent as an own key, the
truthy inherited function makes `if (!entries[dateKey])` skip the
array creation and `entries[dateKey].push(...)` throws a TypeError
instead of storing the text. -/
theorem c10_no_key_validation_counterexample :
    addEntryP [] "toString".data "x".data = Except.error "TypeError".data ∧
    trimCh "x".data ≠ [] :=
  ⟨by rfl, by decide⟩

/-- C10 (amended): neither `add` nor `update` validates the key against
the canonical date form.  For every key that is not an inherited
`Object.prototype` property name — or that is already present as an
own key — `add` with a non-blank text succeeds and appends the trimmed
text under exactly that key, so the store can come to contain non-date
keys through the public write interface; a prototype-named key absent
from the store instead throws a TypeError.  `update` accepts any
present key with a valid index, non-date keys included. -/
theorem c10_no_key_validation_amended :
    (∀ (st : Store) (k t : Str), trimCh t ≠ [] →
      (k ∉ objProtoNames ∨ (alookup st k).isSome = true) →
      addEntryP st k t = Except.ok (true, pushEntry st k (trimCh t)) ∧
      getEntriesByDate (pushEntry st k (trimCh t)) k
        = getEntriesByDate st k ++ [trimCh t]) ∧
    (∀ (st : Store) (k t : Str), trimCh t ≠ [] → alookup st k = none →
      k ∈ objProtoNames → addEntryP st k t = Except.error "TypeError".data) ∧
    isDateShape notADateKey = false ∧
    addEntryP [] notADateKey "x".data
      = Except.ok (true, [(notADateKey, ["x".data])]) ∧
    updateEntry [(notADateKey, ["a".data])] notADateKey 0 "b".data
      = (true, [(notADateKey, ["b".data])]) := by
  refine ⟨?_, ?_, by decide, by rfl, by decide⟩
  · intro st k t ht hk
    constructor
    · unfold addEntryP
      rw [if_neg ht]
      rcases hl : alookup st k with _ | l
      · rcases hk with hk | hk
        · exact if_neg hk
        · rw [hl] at hk
          simp at hk
      · rfl
    · simp [getEntriesByDate, alookup_pushEntry_self]
  · intro st k t ht hnone hmem
    unfold addEntryP
    rw [if_neg ht, hnone]
    exact if_pos hmem

theorem c10_no_key_validation_amended_witness :
    (addEntryP [] "???".data "x".data
        = Except.ok (true, pushEntry [] "???".data (trimCh "x".data)) ∧
      getEntriesByDate (pushEntry [] "???".data (trimCh "x".data)) "???".data
        = getEntriesByDate ([] : Store) "???".data ++ [trimCh "x".data]) ∧
    addEntryP [] "valueOf".data "x".data = Except.error "TypeError".data :=
  ⟨c10_no_key_validation_amended.1 [] "???".data "x".data (by decide)
      (Or.inl (by decide)),
   c10_no_key_validation_amended.2.1 [] "valueOf".data "x".data (by decide)
      (by rfl) (by decide)⟩

theorem alookup_eq_none_iff {α : Type} (l : List (Str × α)) (k : Str) :
    alookup l k = none ↔ k ∉ l.map Prod.fst := by
  induction l with
  | nil => simp [alookup]
  | cons p rest ih =>
    obtain ⟨k1, v1⟩ := p
    by_cases hk : k1 = k
    · show (if k1 = k then some v1 else alookup rest k) = none ↔ _
      rw [if_pos hk]
      constructor
      · intro h; cases h
      · intro h; exact absurd (List.mem_map.mpr ⟨(k1, v1), List.mem_cons_self _ _, hk⟩) h
    · show (if k1 = k then some v1 else alookup rest k) = none ↔ _
      rw [if_neg hk, ih, List.map_cons]
      constructor
      · intro h hmem
        rcases List.mem_cons.mp hmem with h1 | h1
        · exact hk h1.symm
        · exact h h1
      · intro h h1; exact h (List.mem_cons.mpr (Or.inr h1))

theorem alookup_some_mem {α : Type} {l : List (Str × α)} {k : Str} {v : α}
    (h : alookup l k = some v) : (k, v) ∈ l := by
  induction l with
  | nil => cases h
  | cons p rest ih =>
    obtain ⟨k1, v1⟩ := p
    rw [show alookup ((k1, v1) :: rest) k = if k1 = k then some v1 else alookup rest k from rfl] at h
    by_cases hk : k1 = k
    · rw [if_pos hk] at h
      cases hk
      cases h
      exact List.mem_cons_self _ _
    · rw [if_neg hk] at h
      exact List.mem_cons.mpr (Or.inr (ih h))

theorem mem_alookup {α : Type} {l : List (Str × α)} {k : Str} {v : α}
    (h : (k, v) ∈ l) (hn : (l.map Prod.fst).Nodup) : alookup l k = some v := by
  induction l with
  | nil => cases h
  | cons p rest ih =>
    obtain ⟨k1, v1⟩ := p
    rw [List.map_cons, List.nodup_cons] at hn
    show (if k1 = k then some v1 else alookup rest k) = some v
    rcases List.mem_cons.mp h with h1 | h1
    · injection h1 with e1 e2
      rw [if_pos e1.symm, e2]
    · by_cases hk : k1 = k
      · exact absurd (by rw [hk]; exact List.mem_map.mpr ⟨(k, v), h1, rfl⟩) hn.1
      · rw [if_neg hk]
        exact ih h1 hn.2

theorem keys_appendAt (st : Store) (k it : Str) :
    (appendAt st k it).map Prod.fst = st.map Prod.fst := by
  induction st with
  | nil => rfl
  | cons p rest ih =>
    obtain ⟨k1, l1⟩ := p
    by_cases hk : k1 = k
    · simp [appendAt, hk]
    · simp [appendAt, hk, ih]

theorem mergeInner_lookup_other (items : List Str) (st : Store) (k k2 : Str)
    (hne : k2 ≠ k) :
    alookup (items.foldl
      (fun m it => if (getEntriesByDate m k).contains it then m else appendAt m k it) st) k2
      = alookup st k2 := by
  induction items generalizing st with
  | nil => rfl
  | cons it rest ih =>
    rw [List.foldl_cons, ih]
    by_cases hc : (getEntriesByDate st k).contains it
    · rw [if_pos hc]
    · rw [if_neg hc, alookup_appendAt_other hne]

theorem mergeInner_lookup_self (items : List Str) (st : Store) (k : Str) (l : List Str)
    (h : alookup st k = some l) :
    alookup (items.foldl
      (fun m it => if (getEntriesByDate m k).contains it then m else appendAt m k it) st) k
      = some (dedupAppend l items) := by
  induction items generalizing st l with
  | nil => simpa [dedupAppend] using h
  | cons it rest ih =>
    rw [List.foldl_cons]
    have hg : getEntriesByDate st k = l := by simp [getEntriesByDate, h]
    by_cases hc : l.contains it
    · have hm : it ∈ l := by simpa using hc
      rw [hg, if_pos hc, ih st l h]
      congr 1
      simp [dedupAppend, List.foldl_cons, hm]
    · have hm : ¬ it ∈ l := by simpa using hc
      rw [hg, if_neg hc, ih _ (l ++ [it]) (alookup_appendAt_self h it)]
      congr 1
      simp [dedupAppend, List.foldl_cons, hm]

theorem mergeOne_lookup_self (st : Store) (p : Str × List Str) :
    alookup (mergeOne st p) p.1 =
      some (match alookup st p.1 with
            | some l => dedupAppend l p.2
            | none => p.2) := by
  obtain ⟨k, items⟩ := p
  cases h : alookup st k with
  | some l =>
    simp only [mergeOne, h]
    exact mergeInner_lookup_self items st k l h
  | none =>
    simp only [mergeOne, h]
    rw [alookup_append_right _ h]
    simp [alookup]

theorem mergeOne_lookup_other (st : Store) (p : Str × List Str) (k2 : Str)
    (hne : k2 ≠ p.1) :
    alookup (mergeOne st p) k2 = alookup st k2 := by
  obtain ⟨k, items⟩ := p
  cases h : alookup st k with
  | some l =>
    simp only [mergeOne, h]
    exact mergeInner_lookup_other items st k k2 hne
  | none =>
    simp only [mergeOne, h]
    cases h2 : alookup st k2 with
    | some l2 => exact alookup_append_left _ h2
    | none =>
      rw [alookup_append_right _ h2]
      simp [alookup, Ne.symm hne]

theorem merge_fold_lookup (imported : Store) (existing : Store)
    (hn : (imported.map Prod.fst).Nodup) (d : Str) :
    alookup (imported.foldl mergeOne existing) d =
      match alookup imported d with
      | some its =>
        some (match alookup existing d with
              | some l => dedupAppend l its
              | none => its)
      | none => alookup existing d := by
  induction imported generalizing existing with
  | nil => rfl
  | cons p rest ih =>
    obtain ⟨k, items⟩ := p
    rw [List.map_cons, List.nodup_cons] at hn
    rw [List.foldl_cons, ih _ hn.2]
    by_cases hd : d = k
    · have hrest : alookup rest d = none := by
        rw [alookup_eq_none_iff, hd]
        exact hn.1
      rw [hrest, alookup_cons, if_pos hd.symm, hd]
      exact mergeOne_lookup_self existing (k, items)
    · rw [alookup_cons, if_neg (fun h => hd h.symm),
        mergeOne_lookup_other existing (k, items) d hd]

theorem insertIdx_perm {α : Type} (p : Str × α) (l : List (Str × α)) :
    List.Perm (insertIdx p l) (p :: l) := by
  induction l with
  | nil => exact List.Perm.refl _
  | cons q rest ih =>
    by_cases h : digitsVal q.1 ≤ digitsVal p.1
    · simp only [insertIdx, if_pos h]
      exact (ih.cons q).trans (List.Perm.swap p q rest)
    · simp only [insertIdx, if_neg h]
      exact List.Perm.refl _

theorem sortIdx_perm {α : Type} (l : List (Str × α)) :
    List.Perm (sortIdx l) l := by
  induction l with
  | nil => exact List.Perm.refl _
  | cons p rest ih => exact (insertIdx_perm p (sortIdx rest)).trans (ih.cons p)

theorem objOrder_perm {α : Type} (l : List (Str × α)) :
    List.Perm (objOrder l) l := by
  unfold objOrder
  exact ((sortIdx_perm _).append_right _).trans
    (List.filter_append_perm (fun p => isIndexKey p.1) l)

theorem alookup_perm {α : Type} {l l2 : List (Str × α)} (h : List.Perm l l2)
    (hn : (l2.map Prod.fst).Nodup) (k : Str) : alookup l k = alookup l2 k := by
  have hn1 : (l.map Prod.fst).Nodup := ((h.map Prod.fst).nodup_iff).mpr hn
  cases hx : alookup l2 k with
  | some v =>
    exact mem_alookup (h.mem_iff.mpr (alookup_some_mem hx)) hn1
  | none =>
    rw [alookup_eq_none_iff] at hx ⊢
    intro hm
    exact hx ((h.map Prod.fst).mem_iff.mp hm)

/-- C3: `mergeImported` unions each imported date's entries into the
existing list for that date, skipping an imported entry exactly when
its exact string (case- and whitespace-sensitive) already exists in the
list for that date at the moment it is considered (`dedupAppend`);
imported entries for a date absent from the existing store become that
date's list verbatim. -/
theorem c3_merge_imported (existing imported : Store)
    (hn : (imported.map Prod.fst).Nodup) (d : Str) :
    alookup (mergeEntries existing imported) d =
      match alookup imported d with
      | some its =>
        some (match alookup existing d with
              | some l => dedupAppend l its
              | none => its)
      | none => alookup existing d := by
  unfold mergeEntries
  have hperm := objOrder_perm imported
  have hn2 : ((objOrder imported).map Prod.fst).Nodup :=
    ((hperm.map Prod.fst).nodup_iff).mpr hn
  rw [merge_fold_lookup (objOrder imported) existing hn2 d,
    alookup_perm hperm hn d]

theorem c3_merge_imported_witness :
    alookup (mergeEntries [("2025-01-01".data, ["a".data])]
        [("2025-01-01".data, ["a".data, "b".data]), ("2025-01-02".data, ["c".data])])
        "2025-01-01".data
      = match alookup [("2025-01-01".data, ["a".data, "b".data]),
            ("2025-01-02".data, ["c".data])] "2025-01-01".data with
        | some its =>
          some (match alookup [("2025-01-01".data, ["a".data])] "2025-01-01".data with
                | some l => dedupAppend l its
                | none => its)
        | none => alookup [("2025-01-01".data, ["a".data])] "2025-01-01".data :=
  c3_merge_imported _ _ (by decide) _

/-- C4: import fails exactly when the parsed mapping has zero dates (in
which case no merged store is produced, so the persisted store is left
unmodified), and on success reports the number of accepted rows of the
file, not the number of entries actually added after dedup.  The
concrete scenario: a header-only file fails, and a two-row file whose
first row duplicates an existing entry is reported as 2 imported while
only one entry is added. -/
theorem c4_import_count :
    (∀ (content : Str) (st : Store), parseCSV content = [] →
      importFromCSV content st = Except.error "No valid entries found in CSV file".data) ∧
    (∀ (content : Str) (st : Store), parseCSV content ≠ [] →
      importFromCSV content st
        = Except.ok (countRows (parseCSV content), mergeEntries st (parseCSV content))) ∧
    importFromCSV "Date,Gratitude Entry".data c4store
      = Except.error "No valid entries found in CSV file".data ∧
    importFromCSV c4content c4store
      = Except.ok (2, [("2025-01-01".data, ["a".data, "b".data])]) ∧
    countRows (parseCSV c4content) = 2 ∧
    getTotalEntryCount (mergeEntries c4store (parseCSV c4content))
      = getTotalEntryCount c4store + 1 := by
  refine ⟨?_, ?_, by rfl, by rfl, by decide, by decide⟩
  · intro content st h
    simp [importFromCSV, h]
  · intro content st h
    have hlen : ¬ (parseCSV content).length = 0 := by
      simpa [List.length_eq_zero] using h
    simp [importFromCSV, hlen]

theorem c4_import_count_witness :
    importFromCSV "Date,Gratitude Entry\nnope".data []
      = Except.error "No valid entries found in CSV file".data :=
  c4_import_count.1 _ _ (by decide)

theorem splitCh_not_mem {sep : Char} {l : Str} (h : ¬ sep ∈ l) :
    splitCh sep l = [l] := by
  induction l with
  | nil => rfl
  | cons c rest ih =>
    have hc : ¬ c = sep := fun e => h (by rw [e]; exact List.mem_cons_self _ _)
    have hr : ¬ sep ∈ rest := fun e => h (List.mem_cons.mpr (Or.inr e))
    simp only [splitCh, if_neg hc, ih hr]

theorem splitCh_append {sep : Char} {l : Str} (h : ¬ sep ∈ l) (r : Str) :
    splitCh sep (l ++ sep :: r) = l :: splitCh sep r := by
  induction l with
  | nil => simp [splitCh]
  | cons c rest ih =>
    have hc : ¬ c = sep := fun e => h (by rw [e]; exact List.mem_cons_self _ _)
    have hr : ¬ sep ∈ rest := fun e => h (List.mem_cons.mpr (Or.inr e))
    rw [List.cons_append]
    show (if c = sep then ([] : Str) :: splitCh sep (rest ++ sep :: r)
      else match splitCh sep (rest ++ sep :: r) with
        | s :: ss => (c :: s) :: ss
        | [] => [[c]]) = (c :: rest) :: splitCh sep r
    rw [if_neg hc, ih hr]

theorem parseStep_rowAccept (st : Store) (line : Str) :
    parseStep st line = match rowAccept line with
      | some p => pushEntry st p.1 p.2
      | none => st := by
  simp only [parseStep, rowAccept]
  split_ifs <;> first
    | rfl
    | simp_all

theorem foldl_parseStep_filterMap (lines : List Str) (st : Store) :
    lines.foldl parseStep st
      = (lines.filterMap rowAccept).foldl (fun s p => pushEntry s p.1 p.2) st := by
  induction lines generalizing st with
  | nil => rfl
  | cons l rest ih =>
    have hs := parseStep_rowAccept st l
    cases h : rowAccept l with
    | some p =>
      rw [h] at hs
      rw [List.foldl_cons, hs, ih, List.filterMap_cons, h, List.foldl_cons]
    | none =>
      rw [h] at hs
      rw [List.foldl_cons, hs, ih, List.filterMap_cons, h]

/-- C5: line 0 is never treated as data (the parse result only depends
on the lines after the first, whatever the header's content), and a
subsequent line contributes a (date, entry) pair exactly under the
`rowAccept` condition: the trimmed line is non-blank, quote-aware field
splitting yields at least two fields, both trimmed fields are non-empty
and the trimmed date field has the 4-2-2-digit dashed shape, with no
calendar-validity check (`9999-99-99` is accepted, and a data-looking
line 0 is ignored). -/
theorem c5_parse_rows :
    (∀ (hdr1 hdr2 rest : Str), ¬ '\n' ∈ hdr1 → ¬ '\n' ∈ hdr2 →
      parseCSV (hdr1 ++ '\n' :: rest) = parseCSV (hdr2 ++ '\n' :: rest)) ∧
    (∀ content : Str, parseCSV content
      = (((splitCh '\n' content).drop 1).filterMap rowAccept).foldl
          (fun s p => pushEntry s p.1 p.2) []) ∧
    parseCSV "2025-01-01,x".data = [] ∧
    parseCSV "Date,Gratitude Entry\n9999-99-99,x".data
      = [("9999-99-99".data, ["x".data])] := by
  refine ⟨?_, ?_, by decide, by decide⟩
  · intro hdr1 hdr2 rest m1 m2
    unfold parseCSV
    rw [splitCh_append m1, splitCh_append m2]
    rfl
  · intro content
    exact foldl_parseStep_filterMap _ _

theorem c5_parse_rows_witness :
    parseCSV ("IGNORED HEADER".data ++ '\n' :: "2025-01-01,x".data)
      = parseCSV ("Date,Gratitude Entry".data ++ '\n' :: "2025-01-01,x".data) :=
  c5_parse_rows.1 _ _ _ (by decide) (by decide)

theorem isJsWs_eq_false_of_digit {c : Char} (h : c.isDigit = true) : isJsWs c = false := by
  simp [Char.isDigit] at h
  have h2 : 48 ≤ c.toNat ∧ c.toNat ≤ 57 := ⟨h.1, h.2⟩
  simp only [isJsWs, Bool.or_eq_false_iff, decide_eq_false_iff_not, Bool.and_eq_false_iff,
    decide_eq_true_eq, not_le]
  omega

theorem dropWhile_eq_self_head {l : Str} (hne : l ≠ [])
    (h : l.dropWhile isJsWs = l) : isJsWs (l.head hne) = false := by
  cases l with
  | nil => exact absurd rfl hne
  | cons c t =>
    rw [List.dropWhile_cons] at h
    by_cases hc : isJsWs c = true
    · rw [if_pos hc] at h
      have := (List.dropWhile_sublist (l := t) isJsWs).length_le
      rw [h] at this
      simp at this
    · simpa using hc

theorem trim_self_parts {l : Str} (h : trimCh l = l) :
    l.dropWhile isJsWs = l ∧ l.reverse.dropWhile isJsWs = l.reverse := by
  have h1 := (List.dropWhile_sublist (l := l) isJsWs).length_le
  have h2 := (List.dropWhile_sublist (l := (l.dropWhile isJsWs).reverse) isJsWs).length_le
  have hlen : (trimCh l).length = l.length := by rw [h]
  unfold trimCh at hlen
  rw [List.length_reverse] at hlen
  rw [List.length_reverse] at h2
  have hu : (l.dropWhile isJsWs).length = l.length := by omega
  have hueq : l.dropWhile isJsWs = l := (List.dropWhile_sublist isJsWs).eq_of_length hu
  refine ⟨hueq, ?_⟩
  have h3 : trimCh l = ((l.reverse.dropWhile isJsWs)).reverse := by
    unfold trimCh
    rw [hueq]
  rw [h] at h3
  have h4 := congrArg List.reverse h3
  rw [List.reverse_reverse] at h4
  exact h4.symm

theorem exists_last_decomp {l : Str} (hne : l ≠ []) :
    ∃ (t : Str) (b : Char), l = t ++ [b] := by
  have hr : l.reverse ≠ [] := by simpa using hne
  cases hx : l.reverse with
  | nil => exact absurd hx hr
  | cons b t =>
    refine ⟨t.reverse, b, ?_⟩
    have h2 := congrArg List.reverse hx
    rw [List.reverse_reverse] at h2
    simpa using h2

theorem trim_self_last {l : Str} {t : Str} {b : Char}
    (h : trimCh l = l) (hl : l = t ++ [b]) : isJsWs b = false := by
  have hp := (trim_self_parts h).2
  rw [hl] at hp
  rw [List.reverse_append] at hp
  simp only [List.reverse_cons, List.reverse_nil, List.nil_append,
    List.singleton_append] at hp
  rw [List.dropWhile_cons] at hp
  by_cases hb : isJsWs b = true
  · rw [if_pos hb] at hp
    have := (List.dropWhile_sublist (l := t.reverse) isJsWs).length_le
    rw [hp] at this
    simp at this
  · simpa using hb

theorem trimCh_eq_self_ends {a b : Char} (mid : Str)
    (ha : isJsWs a = false) (hb : isJsWs b = false) :
    trimCh (a :: (mid ++ [b])) = a :: (mid ++ [b]) := by
  unfold trimCh
  rw [List.dropWhile_cons, if_neg (by simp [ha])]
  have hrev : (a :: (mid ++ [b])).reverse = b :: (mid.reverse ++ [a]) := by
    simp
  rw [hrev, List.dropWhile_cons, if_neg (by simp [hb])]
  have h2 := congrArg List.reverse hrev
  rw [List.reverse_reverse] at h2
  exact h2.symm

theorem trimCh_single {a : Char} (ha : isJsWs a = false) : trimCh [a] = [a] := by
  unfold trimCh
  rw [List.dropWhile_cons, if_neg (by simp [ha])]
  simp [List.dropWhile_cons, ha]

theorem parseLineAux_nil (skip inQ : Bool) (cur : Str) (acc : List Str) :
    parseLineAux [] skip inQ cur acc = acc ++ [cur] := rfl

theorem parseLineAux_skip (c : Char) (rest : Str) (inQ : Bool) (cur : Str) (acc : List Str) :
    parseLineAux (c :: rest) true inQ cur acc = parseLineAux rest false inQ cur acc := by
  simp [parseLineAux]

theorem parseLineAux_other {ch : Char} (rest : Str) (inQ : Bool) (cur : Str) (acc : List Str)
    (h1 : ¬ ch = '"') (h2 : ¬ (ch = ',' ∧ inQ = false)) :
    parseLineAux (ch :: rest) false inQ cur acc = parseLineAux rest false inQ (cur ++ [ch]) acc := by
  simp only [parseLineAux, Bool.false_eq_true, if_false, if_neg h1, if_neg h2]

theorem parseLineAux_comma (rest : Str) (cur : Str) (acc : List Str) :
    parseLineAux (',' :: rest) false false cur acc
      = parseLineAux rest false false [] (acc ++ [cur]) := by
  simp [parseLineAux]

theorem parseLineAux_openQuote (rest : Str) (cur : Str) (acc : List Str) :
    parseLineAux ('"' :: rest) false false cur acc
      = parseLineAux rest false true cur acc := by
  simp [parseLineAux]

theorem parseLineAux_escQuote (rest : Str) (cur : Str) (acc : List Str)
    (h : rest.head? = some '"') :
    parseLineAux ('"' :: rest) false true cur acc
      = parseLineAux rest true true (cur ++ ['"']) acc := by
  simp [parseLineAux, h]

theorem parseLineAux_closeQuote (rest : Str) (cur : Str) (acc : List Str)
    (h : ¬ rest.head? = some '"') :
    parseLineAux ('"' :: rest) false true cur acc
      = parseLineAux rest false false cur acc := by
  cases hx : rest.head? with
  | none => simp [parseLineAux, hx]
  | some c =>
    have hc : ¬ c = '"' := fun e => h (by rw [hx, e])
    simp [parseLineAux, hx, hc]

theorem mem_dupQuotes {ch : Char} {e : Str} : ch ∈ dupQuotes e ↔ ch ∈ e := by
  induction e with
  | nil => simp [dupQuotes]
  | cons c rest ih =>
    by_cases hc : c = '"'
    · subst hc
      simp [dupQuotes, ih]
    · simp [dupQuotes, hc, ih]

theorem parseLineAux_plain (d : Str) (hq : ¬ '"' ∈ d) (hc : ¬ ',' ∈ d) :
    ∀ (s : Str) (inQ : Bool) (cur : Str) (acc : List Str),
      parseLineAux (d ++ s) false inQ cur acc = parseLineAux s false inQ (cur ++ d) acc := by
  induction d with
  | nil => intro s inQ cur acc; simp
  | cons ch rest ih =>
    intro s inQ cur acc
    have h1 : ¬ ch = '"' := fun e => hq (List.mem_cons.mpr (Or.inl e.symm))
    have h2 : ¬ ch = ',' := fun e => hc (List.mem_cons.mpr (Or.inl e.symm))
    have hq2 : ¬ '"' ∈ rest := fun e => hq (List.mem_cons.mpr (Or.inr e))
    have hc2 : ¬ ',' ∈ rest := fun e => hc (List.mem_cons.mpr (Or.inr e))
    rw [List.cons_append,
      parseLineAux_other (rest ++ s) inQ cur acc h1 (fun hh => h2 hh.1),
      ih hq2 hc2 s inQ (cur ++ [ch]) acc, List.append_assoc]
    rfl

theorem parseLineAux_quoted (e : Str) :
    ∀ (cur : Str) (acc : List Str),
      parseLineAux (dupQuotes e ++ ['"']) false true cur acc = acc ++ [cur ++ e] := by
  induction e with
  | nil =>
    intro cur acc
    rw [show dupQuotes [] ++ ['"'] = ['"'] from rfl,
      parseLineAux_closeQuote [] cur acc (by simp), parseLineAux_nil]
    simp
  | cons ch rest ih =>
    intro cur acc
    by_cases hc : ch = '"'
    · subst hc
      rw [show dupQuotes ('"' :: rest) ++ ['"'] = '"' :: ('"' :: (dupQuotes rest ++ ['"'])) from by
          simp [dupQuotes]]
      rw [parseLineAux_escQuote _ cur acc (by simp),
        parseLineAux_skip, ih (cur ++ ['"']) acc, List.append_assoc]
      rfl
    · rw [show dupQuotes (ch :: rest) ++ ['"'] = ch :: (dupQuotes rest ++ ['"']) from by
          simp [dupQuotes, hc]]
      rw [parseLineAux_other _ true cur acc hc (by simp),
        ih (cur ++ [ch]) acc, List.append_assoc]
      rfl

theorem escapeCell_cases (e : Str) :
    (escapeCell e = e ∧ ¬ ',' ∈ e ∧ ¬ '"' ∈ e ∧ ¬ '\n' ∈ e) ∨
    escapeCell e = '"' :: (dupQuotes e ++ ['"']) := by
  unfold escapeCell
  by_cases h : (e.contains ',' || e.contains '"' || e.contains '\n') = true
  · rw [if_pos h]
    right
    rfl
  · rw [if_neg h]
    left
    simp only [Bool.or_eq_true, not_or] at h
    refine ⟨rfl, by simpa using h.1.1, by simpa using h.1.2, by simpa using h.2⟩

theorem parseCSVLine_export (d e : Str) (hq : ¬ '"' ∈ d) (hc : ¬ ',' ∈ d) :
    parseCSVLine (d ++ ',' :: escapeCell e) = [d, e] := by
  unfold parseCSVLine
  rw [parseLineAux_plain d hq hc _ false [] [], parseLineAux_comma]
  rcases escapeCell_cases e with ⟨heq, hc2, hq2, hn2⟩ | heq
  · rw [heq, show (e : Str) = e ++ [] from (List.append_nil e).symm,
      parseLineAux_plain e hq2 hc2 [] false [] _, parseLineAux_nil]
    simp
  · rw [heq, parseLineAux_openQuote, parseLineAux_quoted e]
    simp

theorem digit_not_special {c : Char} (h : c.isDigit = true) :
    (c.isDigit || c = '-') = true := by
  simp [h]

theorem isDateShape_facts {d : Str} (h : isDateShape d = true) :
    d.all (fun c => c.isDigit || c = '-') = true ∧
    (¬ ',' ∈ d) ∧ (¬ '"' ∈ d) ∧ (¬ '\n' ∈ d) ∧ trimCh d = d ∧ d ≠ [] ∧
    isIndexKey d = false := by
  rcases d with _ | ⟨c1, _ | ⟨c2, _ | ⟨c3, _ | ⟨c4, _ | ⟨c5, _ | ⟨c6, _ | ⟨c7, _ | ⟨c8, _ |
    ⟨c9, _ | ⟨c10, _ | ⟨c11, t⟩⟩⟩⟩⟩⟩⟩⟩⟩⟩⟩ <;>
    simp only [isDateShape] at h
  · cases h
  · cases h
  · cases h
  · cases h
  · cases h
  · cases h
  · cases h
  · cases h
  · cases h
  · cases h
  case cons.cons.cons.cons.cons.cons.cons.cons.cons.cons.nil =>
    simp only [Bool.and_eq_true, decide_eq_true_eq] at h
    obtain ⟨⟨⟨⟨⟨⟨⟨⟨⟨h1, h2⟩, h3⟩, h4⟩, h5⟩, h6⟩, h7⟩, h8⟩, h9⟩, h10⟩ := h
    subst h5
    subst h8
    have hall : ([c1, c2, c3, c4, '-', c6, c7, '-', c9, c10]).all
        (fun c => c.isDigit || c = '-') = true := by
      simp [List.all_cons, h1, h2, h3, h4, h6, h7, h9, h10]
    have hmem := List.all_eq_true.mp hall
    refine ⟨hall, ?_, ?_, ?_, ?_, by simp, ?_⟩
    · intro hm
      exact absurd (hmem _ hm) (by decide)
    · intro hm
      exact absurd (hmem _ hm) (by decide)
    · intro hm
      exact absurd (hmem _ hm) (by decide)
    · exact trimCh_eq_self_ends [c2, c3, c4, '-', c6, c7, '-', c9]
        (isJsWs_eq_false_of_digit h1) (isJsWs_eq_false_of_digit h10)
    · have hdigits : ([c1, c2, c3, c4, '-', c6, c7, '-', c9, c10]).all Char.isDigit = false := by
        rw [List.all_eq_false]
        exact ⟨'-', by simp, by decide⟩
      simp [isIndexKey, hdigits]
  · cases h

theorem escapeCell_no_newline {e : Str} (hnl : ¬ '\n' ∈ e) : ¬ '\n' ∈ escapeCell e := by
  rcases escapeCell_cases e with ⟨heq, _, _, _⟩ | heq
  · rw [heq]; exact hnl
  · rw [heq]
    intro hm
    simp only [List.mem_cons, List.mem_append, mem_dupQuotes] at hm
    rcases hm with hm | hm | hm
    · cases hm
    · exact hnl hm
    · simp at hm

theorem escapeCell_last {e : Str} (htrim : trimCh e = e) (hne : e ≠ []) :
    ∃ (E : Str) (b : Char), escapeCell e = E ++ [b] ∧ isJsWs b = false := by
  rcases escapeCell_cases e with ⟨heq, _, _, _⟩ | heq
  · obtain ⟨t0, b, hEb⟩ := exists_last_decomp hne
    exact ⟨t0, b, by rw [heq, hEb], trim_self_last htrim hEb⟩
  · exact ⟨'"' :: dupQuotes e, '"', by rw [heq]; simp, by decide⟩

theorem export_line_trim (d e : Str)
    (htrim_d : trimCh d = d) (hne_d : d ≠ [])
    (htrim : trimCh e = e) (hne : e ≠ []) :
    trimCh (d ++ ',' :: escapeCell e) = d ++ ',' :: escapeCell e := by
  obtain ⟨E, b, hEb, hbws⟩ := escapeCell_last htrim hne
  cases d with
  | nil => exact absurd rfl hne_d
  | cons c dt =>
    have hhead : isJsWs c = false := by
      have := dropWhile_eq_self_head (l := c :: dt) (by simp) (trim_self_parts htrim_d).1
      simpa using this
    have hsplit : (c :: dt) ++ ',' :: escapeCell e
        = c :: ((dt ++ ',' :: E) ++ [b]) := by
      rw [hEb]
      simp
    rw [hsplit, trimCh_eq_self_ends _ hhead hbws]

theorem rowAccept_export (d e : Str)
    (hshape : isDateShape d = true)
    (htrim : trimCh e = e) (hne : e ≠ []) :
    rowAccept (d ++ ',' :: escapeCell e) = some (d, e) := by
  obtain ⟨hall, hcomma, hquote, hnl_d, htrim_d, hne_d, _⟩ := isDateShape_facts hshape
  have hline_trim := export_line_trim d e htrim_d hne_d htrim hne
  have hline_ne : d ++ ',' :: escapeCell e ≠ [] := by
    cases d with
    | nil => exact absurd rfl hne_d
    | cons c dt => simp
  simp only [rowAccept]
  rw [hline_trim, if_neg hline_ne, parseCSVLine_export d e hquote hcomma]
  have hget0 : ([d, e].getD 0 []) = d := rfl
  have hget1 : ([d, e].getD 1 []) = e := rfl
  rw [hget0, hget1, htrim_d, htrim]
  rw [if_pos ⟨by simp, hne_d, hne, hshape⟩]

theorem parseStep_export (st : Store) (d e : Str)
    (hshape : isDateShape d = true)
    (htrim : trimCh e = e) (hne : e ≠ []) :
    parseStep st (d ++ ',' :: escapeCell e) = pushEntry st d e := by
  rw [parseStep_rowAccept, rowAccept_export d e hshape htrim hne]

theorem objOrder_eq_self {α : Type} {l : List (Str × α)}
    (h : ∀ p ∈ l, isIndexKey p.1 = false) : objOrder l = l := by
  unfold objOrder
  have h1 : l.filter (fun p => isIndexKey p.1) = [] := by
    rw [List.filter_eq_nil_iff]
    intro p hp
    simp [h p hp]
  have h2 : l.filter (fun p => !isIndexKey p.1) = l := by
    rw [List.filter_eq_self]
    intro p hp
    simp [h p hp]
  rw [h1, h2]
  rfl

theorem escapeCell_eq_self {d : Str}
    (h1 : ¬ ',' ∈ d) (h2 : ¬ '"' ∈ d) (h3 : ¬ '\n' ∈ d) : escapeCell d = d := by
  unfold escapeCell
  rw [if_neg]
  simp [h1, h2, h3]

theorem intercalate_pair (s a b : Str) : List.intercalate s [a, b] = a ++ s ++ b := by
  simp [List.intercalate, List.intersperse]

theorem flatMap_congr_mem {α β : Type} {l : List α} {f g : α → List β}
    (h : ∀ x ∈ l, f x = g x) : l.flatMap f = l.flatMap g := by
  induction l with
  | nil => rfl
  | cons x rest ih =>
    rw [List.flatMap_cons, List.flatMap_cons, h x (List.mem_cons_self _ _),
      ih (fun y hy => h y (List.mem_cons.mpr (Or.inr hy)))]

theorem exportToCSV_structure (st : Store)
    (hshape : ∀ p ∈ st, isDateShape p.1 = true) :
    exportToCSV st = List.intercalate ['\n'] ("Date,Gratitude Entry".data :: dataLines st) := by
  unfold exportToCSV exportRows
  congr 1
  rw [List.map_cons]
  congr 1
  rw [objOrder_eq_self (fun p hp => (isDateShape_facts (hshape p hp)).2.2.2.2.2.2)]
  rw [List.map_flatMap]
  unfold dataLines
  apply flatMap_congr_mem
  intro p hp
  obtain ⟨_, hcomma, hquote, hnl, _, _, _⟩ := isDateShape_facts (hshape p hp)
  rw [List.map_map]
  apply List.map_congr_left
  intro it hit
  simp only [Function.comp]
  rw [List.map_cons, List.map_cons, List.map_nil,
    escapeCell_eq_self hcomma hquote hnl, intercalate_pair]
  simp

theorem splitCh_intercalate {sep : Char} (ls : List Str)
    (h : ∀ l ∈ ls, ¬ sep ∈ l) (hne : ls ≠ []) :
    splitCh sep (List.intercalate [sep] ls) = ls := by
  induction ls with
  | nil => exact absurd rfl hne
  | cons a t ih =>
    cases t with
    | nil =>
      rw [show List.intercalate [sep] [a] = a from by simp [List.intercalate, List.intersperse]]
      exact splitCh_not_mem (h a (by simp))
    | cons b t2 =>
      rw [show List.intercalate [sep] (a :: b :: t2)
          = a ++ sep :: List.intercalate [sep] (b :: t2) from by
        simp [List.intercalate, List.intersperse]]
      rw [splitCh_append (h a (by simp)),
        ih (fun l hl => h l (List.mem_cons.mpr (Or.inr hl))) (by simp)]

theorem dataLines_no_newline {st : Store}
    (hshape : ∀ p ∈ st, isDateShape p.1 = true)
    (hent : ∀ p ∈ st, ∀ e ∈ p.2, ¬ '\n' ∈ e) :
    ∀ l ∈ dataLines st, ¬ '\n' ∈ l := by
  intro l hl
  unfold dataLines at hl
  rw [List.mem_flatMap] at hl
  obtain ⟨p, hp, hl2⟩ := hl
  rw [List.mem_map] at hl2
  obtain ⟨it, hit, rfl⟩ := hl2
  obtain ⟨_, _, _, hnl_d, _, _, _⟩ := isDateShape_facts (hshape p hp)
  intro hm
  rw [List.mem_append] at hm
  rcases hm with hm | hm
  · exact hnl_d hm
  · rw [List.mem_cons] at hm
    rcases hm with hm | hm
    · cases hm
    · exact escapeCell_no_newline (hent p hp it hit) hm

theorem dataLines_eq_map_pairs (st : Store) :
    dataLines st = (pairsOf st).map (fun q => q.1 ++ ',' :: escapeCell q.2) := by
  unfold dataLines pairsOf
  rw [List.map_flatMap]
  apply flatMap_congr_mem
  intro p hp
  rw [List.map_map]
  rfl

theorem foldl_congr_mem {α β : Type} {l : List α} {f g : β → α → β}
    (h : ∀ x ∈ l, ∀ b, f b x = g b x) :
    ∀ init, List.foldl f init l = List.foldl g init l := by
  induction l with
  | nil => intro init; rfl
  | cons x rest ih =>
    intro init
    rw [List.foldl_cons, List.foldl_cons, h x (List.mem_cons_self _ _),
      ih (fun y hy b => h y (List.mem_cons.mpr (Or.inr hy)) b)]

theorem appendAt_concat {acc : Store} {d : Str} (hd : ¬ d ∈ acc.map Prod.fst)
    (l : List Str) (it : Str) :
    appendAt (acc ++ [(d, l)]) d it = acc ++ [(d, l ++ [it])] := by
  induction acc with
  | nil => simp [appendAt]
  | cons p rest ih =>
    obtain ⟨k, v⟩ := p
    have hk : ¬ k = d := fun e => hd (by simp [e])
    rw [List.cons_append, List.cons_append]
    show appendAt ((k, v) :: (rest ++ [(d, l)])) d it = _
    rw [show appendAt ((k, v) :: (rest ++ [(d, l)])) d it
        = (k, v) :: appendAt (rest ++ [(d, l)]) d it from by
      simp [appendAt, hk]]
    rw [ih (fun e => hd (List.mem_cons.mpr (Or.inr e)))]

theorem alookup_concat_self {acc : Store} {d : Str} (hd : ¬ d ∈ acc.map Prod.fst)
    (l : List Str) : alookup (acc ++ [(d, l)]) d = some l := by
  rw [alookup_append_right _ ((alookup_eq_none_iff acc d).mpr hd)]
  simp [alookup]

theorem foldl_push_items (items : List Str) :
    ∀ (acc : Store) (d : Str) (l : List Str), ¬ d ∈ acc.map Prod.fst →
    List.foldl (fun s q => pushEntry s q.1 q.2) (acc ++ [(d, l)])
        (items.map (fun it => (d, it)))
      = acc ++ [(d, l ++ items)] := by
  induction items with
  | nil => intro acc d l _; simp
  | cons it rest ih =>
    intro acc d l hd
    rw [List.map_cons, List.foldl_cons]
    have hstep : pushEntry (acc ++ [(d, l)]) d it = acc ++ [(d, l ++ [it])] := by
      unfold pushEntry
      rw [alookup_concat_self hd l]
      exact appendAt_concat hd l it
    show List.foldl (fun s q => pushEntry s q.1 q.2) (pushEntry (acc ++ [(d, l)]) d it)
        (rest.map (fun x => (d, x))) = acc ++ [(d, l ++ it :: rest)]
    rw [hstep, ih acc d (l ++ [it]) hd, List.append_assoc]
    rfl

theorem foldl_push_flat (rest : Store) :
    ∀ (acc : Store),
    (∀ p ∈ rest, ¬ p.1 ∈ acc.map Prod.fst) → ((rest.map Prod.fst).Nodup) →
    (∀ p ∈ rest, p.2 ≠ []) →
    List.foldl (fun s q => pushEntry s q.1 q.2) acc (pairsOf rest) = acc ++ rest := by
  induction rest with
  | nil => intro acc _ _ _; simp [pairsOf]
  | cons p rest' ih =>
    intro acc hdisj hnd hne
    obtain ⟨d, l⟩ := p
    rw [show pairsOf ((d, l) :: rest')
        = l.map (fun it => (d, it)) ++ pairsOf rest' from by
      simp [pairsOf]]
    rw [List.foldl_append]
    have hd : ¬ d ∈ acc.map Prod.fst := hdisj (d, l) (List.mem_cons_self _ _)
    have hlne : l ≠ [] := hne (d, l) (List.mem_cons_self _ _)
    rw [List.map_cons, List.nodup_cons] at hnd
    cases l with
    | nil => exact absurd rfl hlne
    | cons it0 l' =>
      rw [List.map_cons, List.foldl_cons]
      have hfirst : pushEntry acc d it0 = acc ++ [(d, [it0])] := by
        unfold pushEntry
        rw [(alookup_eq_none_iff acc d).mpr hd]
      show List.foldl (fun s q => pushEntry s q.1 q.2)
          (List.foldl (fun s q => pushEntry s q.1 q.2) (pushEntry acc d it0)
            (l'.map (fun x => (d, x)))) (pairsOf rest') = _
      rw [hfirst, foldl_push_items l' acc d [it0] hd]
      have hdisj2 : ∀ q ∈ rest', ¬ q.1 ∈ (acc ++ [(d, [it0] ++ l')]).map Prod.fst := by
        intro q hq
        rw [List.map_append, List.mem_append]
        rintro (hm | hm)
        · exact hdisj q (List.mem_cons.mpr (Or.inr hq)) hm
        · simp at hm
          exact hnd.1 (hm ▸ List.mem_map.mpr ⟨q, hq, rfl⟩)
      rw [ih (acc ++ [(d, [it0] ++ l')]) hdisj2 hnd.2
        (fun q hq => hne q (List.mem_cons.mpr (Or.inr hq))), List.append_assoc]
      rfl

theorem mergeEntries_nil {st : Store} (hnd : (st.map Prod.fst).Nodup)
    (hidx : ∀ p ∈ st, isIndexKey p.1 = false) : mergeEntries [] st = st := by
  unfold mergeEntries
  rw [objOrder_eq_self hidx]
  have haux : ∀ (rest acc : Store),
      (∀ p ∈ rest, ¬ p.1 ∈ acc.map Prod.fst) → ((rest.map Prod.fst).Nodup) →
      List.foldl mergeOne acc rest = acc ++ rest := by
    intro rest
    induction rest with
    | nil => intro acc _ _; simp
    | cons p rest' ih =>
      intro acc hdisj hnd2
      obtain ⟨d, l⟩ := p
      rw [List.map_cons, List.nodup_cons] at hnd2
      rw [List.foldl_cons]
      have hstep : mergeOne acc (d, l) = acc ++ [(d, l)] := by
        unfold mergeOne
        rw [(alookup_eq_none_iff acc d).mpr (hdisj (d, l) (List.mem_cons_self _ _))]
      rw [hstep]
      have hdisj2 : ∀ q ∈ rest', ¬ q.1 ∈ (acc ++ [(d, l)]).map Prod.fst := by
        intro q hq
        rw [List.map_append, List.mem_append]
        rintro (hm | hm)
        · exact hdisj q (List.mem_cons.mpr (Or.inr hq)) hm
        · simp at hm
          exact hnd2.1 (hm ▸ List.mem_map.mpr ⟨q, hq, rfl⟩)
      rw [ih (acc ++ [(d, l)]) hdisj2 hnd2.2, List.append_assoc]
      rfl
  simpa using haux st [] (by simp) hnd

theorem parseCSV_exportToCSV (st : Store)
    (hnd : (st.map Prod.fst).Nodup)
    (hshape : ∀ p ∈ st, isDateShape p.1 = true)
    (hlist : ∀ p ∈ st, p.2 ≠ [])
    (hent : ∀ p ∈ st, ∀ e ∈ p.2, trimCh e = e ∧ e ≠ [] ∧ ¬ '\n' ∈ e) :
    parseCSV (exportToCSV st) = st := by
  unfold parseCSV
  rw [exportToCSV_structure st hshape]
  rw [splitCh_intercalate ("Date,Gratitude Entry".data :: dataLines st) ?nonl (by simp)]
  case nonl =>
    intro l hl
    rcases List.mem_cons.mp hl with hl | hl
    · subst hl
      decide
    · exact dataLines_no_newline hshape (fun p hp e he => (hent p hp e he).2.2) l hl
  rw [List.drop_one, List.tail_cons, dataLines_eq_map_pairs, List.foldl_map]
  rw [foldl_congr_mem (g := fun s (q : Str × Str) => pushEntry s q.1 q.2) ?hcong []]
  case hcong =>
    intro q hq b
    unfold pairsOf at hq
    rw [List.mem_flatMap] at hq
    obtain ⟨p, hp, hq2⟩ := hq
    rw [List.mem_map] at hq2
    obtain ⟨it, hit, rfl⟩ := hq2
    obtain ⟨htr, hn, _⟩ := hent p hp it hit
    exact parseStep_export b p.1 it (hshape p hp) htr hn
  rw [foldl_push_flat st [] (by simp) hnd hlist]
  simp

/-- C1 (amended): for every store with pairwise-distinct canonical
`YYYY-MM-DD`-shaped keys and non-empty entry lists whose entries are
trimmed, non-empty and newline-free, parsing the exported table and
merging the result into an empty store reproduces the store exactly —
in particular no (date, entry) pair is lost and no duplicate exact
strings are introduced. -/
theorem c1_roundtrip_amended (st : Store)
    (hnd : (st.map Prod.fst).Nodup)
    (hshape : ∀ p ∈ st, isDateShape p.1 = true)
    (hlist : ∀ p ∈ st, p.2 ≠ [])
    (hent : ∀ p ∈ st, ∀ e ∈ p.2, trimCh e = e ∧ e ≠ [] ∧ ¬ '\n' ∈ e) :
    mergeEntries [] (parseCSV (exportToCSV st)) = st := by
  rw [parseCSV_exportToCSV st hnd hshape hlist hent]
  exact mergeEntries_nil hnd
    (fun p hp => (isDateShape_facts (hshape p hp)).2.2.2.2.2.2)

theorem c1_roundtrip_amended_witness :
    mergeEntries [] (parseCSV (exportToCSV
        [("2025-01-01".data, ["hello".data, "a,b\"c".data]), ("2025-01-02".data, ["x".data])]))
      = [("2025-01-01".data, ["hello".data, "a,b\"c".data]), ("2025-01-02".data, ["x".data])] :=
  c1_roundtrip_amended _ (by decide) (by decide) (by decide) (by decide)

/-- C1 as stated is false: the store `c1cexStore` has trimmed non-empty
entries, yet its only entry `"a\nb"` does not survive the round trip —
the parsed merge of its export holds the entry `"a"` instead, so a
(date, entry) pair is lost. -/
theorem c1_roundtrip_counterexample :
    (c1cexStore.all (fun p => p.2.all (fun e => trimCh e == e && !(e == [])))) = true ∧
    mergeEntries [] (parseCSV (exportToCSV c1cexStore))
      = [("2025-01-01".data, ["a".data])] ∧
    ¬ "a\nb".data ∈ getEntriesByDate
        (mergeEntries [] (parseCSV (exportToCSV c1cexStore))) "2025-01-01".data := by
  refine ⟨by decide, by decide, by decide⟩

theorem streakLoop_spec (entries : Store) :
    ∀ (fuel n : Nat) (start : Date), streakLoop entries fuel start = n → n < fuel →
      (∀ i, i < n → hasEntriesOn entries (formatDate (prevIter i start)) = true) ∧
      hasEntriesOn entries (formatDate (prevIter n start)) = false := by
  intro fuel
  induction fuel with
  | zero => intro n start h hlt; omega
  | succ f ih =>
    intro n start h hlt
    by_cases hh : hasEntriesOn entries (formatDate start) = true
    · rw [show streakLoop entries (f + 1) start
          = if hasEntriesOn entries (formatDate start) then
              streakLoop entries f (prevDay start) + 1 else 0 from rfl,
        if_pos hh] at h
      have hmf : streakLoop entries f (prevDay start) < f := by omega
      obtain ⟨ih1, ih2⟩ := ih (streakLoop entries f (prevDay start)) (prevDay start) rfl hmf
      subst h
      refine ⟨?_, ih2⟩
      intro i hi
      cases i with
      | zero => exact hh
      | succ j => exact ih1 j (by omega)
    · rw [show streakLoop entries (f + 1) start
          = if hasEntriesOn entries (formatDate start) then
              streakLoop entries f (prevDay start) + 1 else 0 from rfl,
        if_neg hh] at h
      subst h
      exact ⟨fun i hi => absurd hi (by omega), by simpa using hh⟩

theorem streakLoop_stable (entries : Store) :
    ∀ (fuel fuel2 : Nat) (start : Date), streakLoop entries fuel start < fuel →
      fuel ≤ fuel2 → streakLoop entries fuel2 start = streakLoop entries fuel start := by
  intro fuel
  induction fuel with
  | zero => intro f2 start h _; omega
  | succ f ih =>
    intro f2 start h hle
    cases f2 with
    | zero => omega
    | succ f2b =>
      by_cases hh : hasEntriesOn entries (formatDate start) = true
      · rw [show streakLoop entries (f + 1) start
            = if hasEntriesOn entries (formatDate start) then
                streakLoop entries f (prevDay start) + 1 else 0 from rfl, if_pos hh] at h ⊢
        rw [show streakLoop entries (f2b + 1) start
            = if hasEntriesOn entries (formatDate start) then
                streakLoop entries f2b (prevDay start) + 1 else 0 from rfl, if_pos hh]
        rw [ih f2b (prevDay start) (by omega) (by omega)]
      · rw [show streakLoop entries (f + 1) start
            = if hasEntriesOn entries (formatDate start) then
                streakLoop entries f (prevDay start) + 1 else 0 from rfl, if_neg hh]
        rw [show streakLoop entries (f2b + 1) start
            = if hasEntriesOn entries (formatDate start) then
                streakLoop entries f2b (prevDay start) + 1 else 0 from rfl, if_neg hh]

/-- C2: with "today" as a parameter, the streak is the today-bonus (1
when today has entries, else 0) plus the number of consecutive days
with entries scanning backward from yesterday, stopping at the first
day with none (whenever the backward loop terminates, i.e. its value is
below the fuel); and on the store with entries exactly on
2025-01-01..03, evaluating at today = 2025-01-04 yields 3 while
today = 2025-01-05 yields 0. -/
theorem c2_current_streak :
    (∀ (entries : Store) (today : Date) (fuel n : Nat),
      streakLoop entries fuel (prevDay today) = n → n < fuel →
      calculateStreak entries today fuel
        = (if hasEntriesOn entries (formatDate today) then 1 else 0) + n ∧
      (∀ i, i < n → hasEntriesOn entries (formatDate (prevIter (i + 1) today)) = true) ∧
      hasEntriesOn entries (formatDate (prevIter (n + 1) today)) = false) ∧
    (∀ fuel, 4 ≤ fuel → calculateStreak c2store ⟨2025, 1, 4⟩ fuel = 3) ∧
    (∀ fuel, 4 ≤ fuel → calculateStreak c2store ⟨2025, 1, 5⟩ fuel = 0) := by
  refine ⟨?_, ?_, ?_⟩
  · intro entries today fuel n h hlt
    obtain ⟨h1, h2⟩ := streakLoop_spec entries fuel n (prevDay today) h hlt
    refine ⟨?_, fun i hi => h1 i hi, h2⟩
    unfold calculateStreak
    by_cases hh : hasEntriesOn entries (formatDate today) = true
    · rw [if_pos hh, if_pos hh, h]
      omega
    · rw [if_neg hh, if_neg hh, h]
      omega
  · intro fuel hf
    have h4 : streakLoop c2store 4 (prevDay ⟨2025, 1, 4⟩) = 3 := by decide
    have hst := streakLoop_stable c2store 4 fuel (prevDay ⟨2025, 1, 4⟩)
      (by rw [h4]; omega) hf
    unfold calculateStreak
    rw [if_neg (by decide), hst, h4]
  · intro fuel hf
    have h4 : streakLoop c2store 4 (prevDay ⟨2025, 1, 5⟩) = 0 := by decide
    have hst := streakLoop_stable c2store 4 fuel (prevDay ⟨2025, 1, 5⟩)
      (by rw [h4]; omega) hf
    unfold calculateStreak
    rw [if_neg (by decide), hst, h4]

theorem c2_current_streak_witness :
    calculateStreak c2store ⟨2025, 1, 4⟩ 10 = 3 ∧
    hasEntriesOn c2store (formatDate (prevIter 4 ⟨2025, 1, 4⟩)) = false :=
  ⟨c2_current_streak.2.1 10 (by omega),
   (c2_current_streak.1 c2store ⟨2025, 1, 4⟩ 10 3 (by decide) (by omega)).2.2⟩

theorem incAt_keys (cs : List (Str × Nat)) (t : Str) :
    (incAt cs t).map Prod.fst = cs.map Prod.fst := by
  induction cs with
  | nil => rfl
  | cons p rest ih =>
    obtain ⟨k, n⟩ := p
    by_cases hk : k = t
    · simp [incAt, hk]
    · simp [incAt, hk, ih]

theorem alookup_incAt_self {cs : List (Str × Nat)} {t : Str} {n : Nat}
    (h : alookup cs t = some n) : alookup (incAt cs t) t = some (n + 1) := by
  induction cs with
  | nil => cases h
  | cons p rest ih =>
    obtain ⟨k, m⟩ := p
    by_cases hk : k = t
    · rw [alookup_cons, if_pos hk] at h
      cases h
      simp [incAt, hk, alookup_cons]
    · rw [alookup_cons, if_neg hk] at h
      simp [incAt, hk, alookup_cons, ih h]

theorem alookup_incAt_other {cs : List (Str × Nat)} {t t2 : Str} (hne : t2 ≠ t) :
    alookup (incAt cs t) t2 = alookup cs t2 := by
  induction cs with
  | nil => rfl
  | cons p rest ih =>
    obtain ⟨k, m⟩ := p
    by_cases hk : k = t
    · subst hk
      simp [incAt, alookup_cons, Ne.symm hne]
    · simp [incAt, hk, alookup_cons]
      split <;> simp [ih]

theorem bump_alookup_self (cs : List (Str × Nat)) (t : Str) :
    alookup (bump cs t) t = some ((alookup cs t).getD 0 + 1) := by
  unfold bump
  cases h : alookup cs t with
  | some n => simpa [h] using alookup_incAt_self h
  | none =>
    rw [alookup_append_right _ h]
    simp [alookup, h]

theorem bump_alookup_other (cs : List (Str × Nat)) {t t2 : Str} (hne : t2 ≠ t) :
    alookup (bump cs t) t2 = alookup cs t2 := by
  unfold bump
  cases h : alookup cs t with
  | some n => exact alookup_incAt_other hne
  | none =>
    cases h2 : alookup cs t2 with
    | some m => exact alookup_append_left _ h2
    | none =>
      rw [alookup_append_right _ h2]
      simp [alookup, Ne.symm hne]

theorem bump_keys_mem (cs : List (Str × Nat)) {t : Str}
    (h : t ∈ cs.map Prod.fst) : (bump cs t).map Prod.fst = cs.map Prod.fst := by
  unfold bump
  cases hx : alookup cs t with
  | some n => exact incAt_keys cs t
  | none =>
    rw [alookup_eq_none_iff] at hx
    exact absurd h hx

theorem bump_keys_new (cs : List (Str × Nat)) {t : Str}
    (h : ¬ t ∈ cs.map Prod.fst) :
    (bump cs t).map Prod.fst = cs.map Prod.fst ++ [t] := by
  unfold bump
  rw [(alookup_eq_none_iff cs t).mpr h]
  simp

theorem foldl_bump_keys (stream : List Str) :
    ∀ (cs : List (Str × Nat)),
    (List.foldl bump cs stream).map Prod.fst
      = cs.map Prod.fst ++ keepFirstsAux (cs.map Prod.fst) stream := by
  induction stream with
  | nil => intro cs; simp [keepFirstsAux]
  | cons t rest ih =>
    intro cs
    rw [List.foldl_cons]
    by_cases h : t ∈ cs.map Prod.fst
    · rw [show keepFirstsAux (cs.map Prod.fst) (t :: rest)
          = keepFirstsAux (cs.map Prod.fst) rest from by simp [keepFirstsAux, h]]
      rw [ih (bump cs t), bump_keys_mem cs h]
    · rw [show keepFirstsAux (cs.map Prod.fst) (t :: rest)
          = t :: keepFirstsAux (cs.map Prod.fst ++ [t]) rest from by simp [keepFirstsAux, h]]
      rw [ih (bump cs t), bump_keys_new cs h]
      simp

theorem foldl_bump_alookup (stream : List Str) :
    ∀ (cs : List (Str × Nat)) (t : Str),
    alookup (List.foldl bump cs stream) t
      = if alookup cs t = none ∧ stream.count t = 0 then none
        else some ((alookup cs t).getD 0 + stream.count t) := by
  induction stream with
  | nil =>
    intro cs t
    by_cases h : alookup cs t = none
    · simp [h]
    · cases hx : alookup cs t with
      | none => exact absurd hx h
      | some n => simp [hx]
  | cons s rest ih =>
    intro cs t
    rw [List.foldl_cons, ih (bump cs s) t]
    by_cases hs : s = t
    · subst hs
      rw [bump_alookup_self cs s]
      have hc : (s :: rest).count s = rest.count s + 1 := by
        simp [List.count_cons]
      rw [hc]
      simp
      omega
    · rw [bump_alookup_other cs (fun e => hs e.symm)]
      have hc : (s :: rest).count t = rest.count t := by
        simp [List.count_cons, hs]
      rw [hc]

theorem keepFirstsAux_subset {t : Str} :
    ∀ (l seen : List Str), t ∈ keepFirstsAux seen l → t ∈ l := by
  intro l
  induction l with
  | nil => intro seen h; simp [keepFirstsAux] at h
  | cons x rest ih =>
    intro seen h
    by_cases hx : x ∈ seen
    · rw [show keepFirstsAux seen (x :: rest) = keepFirstsAux seen rest from by
        simp [keepFirstsAux, hx]] at h
      exact List.mem_cons.mpr (Or.inr (ih seen h))
    · rw [show keepFirstsAux seen (x :: rest)
          = x :: keepFirstsAux (seen ++ [x]) rest from by simp [keepFirstsAux, hx]] at h
      rcases List.mem_cons.mp h with h | h
      · exact List.mem_cons.mpr (Or.inl h)
      · exact List.mem_cons.mpr (Or.inr (ih (seen ++ [x]) h))

theorem keepFirstsAux_not_seen {t : Str} :
    ∀ (l seen : List Str), t ∈ keepFirstsAux seen l → ¬ t ∈ seen := by
  intro l
  induction l with
  | nil => intro seen h; simp [keepFirstsAux] at h
  | cons x rest ih =>
    intro seen h
    by_cases hx : x ∈ seen
    · rw [show keepFirstsAux seen (x :: rest) = keepFirstsAux seen rest from by
        simp [keepFirstsAux, hx]] at h
      exact ih seen h
    · rw [show keepFirstsAux seen (x :: rest)
          = x :: keepFirstsAux (seen ++ [x]) rest from by simp [keepFirstsAux, hx]] at h
      rcases List.mem_cons.mp h with h | h
      · subst h; exact hx
      · intro hmem
        exact ih (seen ++ [x]) h (List.mem_append.mpr (Or.inl hmem))

theorem keepFirstsAux_nodup : ∀ (l seen : List Str), (keepFirstsAux seen l).Nodup := by
  intro l
  induction l with
  | nil => intro seen; simp [keepFirstsAux]
  | cons x rest ih =>
    intro seen
    by_cases hx : x ∈ seen
    · rw [show keepFirstsAux seen (x :: rest) = keepFirstsAux seen rest from by
        simp [keepFirstsAux, hx]]
      exact ih seen
    · rw [show keepFirstsAux seen (x :: rest)
          = x :: keepFirstsAux (seen ++ [x]) rest from by simp [keepFirstsAux, hx]]
      rw [List.nodup_cons]
      refine ⟨?_, ih (seen ++ [x])⟩
      intro hmem
      exact keepFirstsAux_not_seen rest (seen ++ [x]) hmem
        (List.mem_append.mpr (Or.inr (by simp)))

theorem foldl_skip_filter (l : List Str) :
    ∀ (init : List (Str × Nat)),
    List.foldl (fun cs e => if normEntry e = [] then cs else bump cs (normEntry e)) init l
      = List.foldl bump init ((l.map normEntry).filter (fun t => ¬ t = [])) := by
  induction l with
  | nil => intro init; rfl
  | cons e rest ih =>
    intro init
    rw [List.foldl_cons, List.map_cons]
    by_cases h : normEntry e = []
    · rw [if_pos h, show (((normEntry e :: rest.map normEntry)).filter (fun t => ¬ t = []))
          = (rest.map normEntry).filter (fun t => ¬ t = []) from by
        simp [List.filter_cons, h]]
      exact ih init
    · rw [if_neg h, show (((normEntry e :: rest.map normEntry)).filter (fun t => ¬ t = []))
          = normEntry e :: (rest.map normEntry).filter (fun t => ¬ t = []) from by
        simp [List.filter_cons, h]]
      rw [List.foldl_cons]
      exact ih (bump init (normEntry e))

theorem foldl_inner_snd (st' : List (Str × List Str)) :
    ∀ (init : List (Str × Nat)),
    List.foldl (fun counts p => p.2.foldl
        (fun cs e => if normEntry e = [] then cs else bump cs (normEntry e)) counts) init st'
      = List.foldl (fun counts l2 => l2.foldl
          (fun cs e => if normEntry e = [] then cs else bump cs (normEntry e)) counts)
        init (st'.map Prod.snd) := by
  induction st' with
  | nil => intro init; rfl
  | cons p rest ih => intro init; rw [List.map_cons, List.foldl_cons, List.foldl_cons, ih]

theorem tally_eq_foldl_bump (st : Store) :
    tally st = List.foldl bump [] (normStream st) := by
  unfold tally normStream
  rw [foldl_inner_snd]
  rw [← List.foldl_flatten]
  exact foldl_skip_filter _ []

theorem tally_keys (st : Store) :
    (tally st).map Prod.fst = keepFirsts (normStream st) := by
  rw [tally_eq_foldl_bump, foldl_bump_keys]
  rfl

theorem tally_counts (st : Store) {q : Str × Nat} (hq : q ∈ tally st) :
    q.2 = (normStream st).count q.1 ∧ 0 < q.2 := by
  have hnd : ((tally st).map Prod.fst).Nodup := by
    rw [tally_keys]
    exact keepFirstsAux_nodup _ _
  have hl : alookup (tally st) q.1 = some q.2 := by
    obtain ⟨k, v⟩ := q
    exact mem_alookup hq hnd
  rw [tally_eq_foldl_bump, foldl_bump_alookup] at hl
  by_cases hz : (normStream st).count q.1 = 0
  · rw [if_pos ⟨rfl, hz⟩] at hl
    cases hl
  · rw [if_neg (fun hh => hz hh.2)] at hl
    simp only [alookup_nil, Option.getD_none, Nat.zero_add] at hl
    have heq := Option.some.inj hl
    exact ⟨heq.symm, by omega⟩

theorem insertDesc_decomp (x : Str × Nat) (m : List (Str × Nat)) :
    ∃ m1 m2, m = m1 ++ m2 ∧ insertDesc x m = m1 ++ x :: m2 := by
  induction m with
  | nil => exact ⟨[], [], rfl, rfl⟩
  | cons y ys ih =>
    by_cases h : x.2 < y.2
    · obtain ⟨m1, m2, he, hi⟩ := ih
      exact ⟨y :: m1, m2, by rw [List.cons_append, ← he],
        by rw [show insertDesc x (y :: ys) = y :: insertDesc x ys from by
            simp [insertDesc, h], hi, List.cons_append]⟩
    · exact ⟨[], y :: ys, rfl, by simp [insertDesc, h]⟩

theorem insertDesc_perm (x : Str × Nat) (m : List (Str × Nat)) :
    (insertDesc x m).Perm (x :: m) := by
  obtain ⟨m1, m2, he, hi⟩ := insertDesc_decomp x m
  rw [hi, he]
  exact List.perm_middle

theorem sortDesc_perm (l : List (Str × Nat)) : (sortDesc l).Perm l := by
  induction l with
  | nil => exact List.Perm.refl _
  | cons x xs ih => exact (insertDesc_perm x (sortDesc xs)).trans (ih.cons x)

theorem insertDesc_sorted (x : Str × Nat) :
    ∀ {m : List (Str × Nat)}, m.Pairwise (fun a b => b.2 ≤ a.2) →
      (insertDesc x m).Pairwise (fun a b => b.2 ≤ a.2) := by
  intro m
  induction m with
  | nil => intro _; simp [insertDesc]
  | cons y ys ih =>
    intro hp
    rw [List.pairwise_cons] at hp
    by_cases h : x.2 < y.2
    · rw [show insertDesc x (y :: ys) = y :: insertDesc x ys from by simp [insertDesc, h]]
      rw [List.pairwise_cons]
      refine ⟨?_, ih hp.2⟩
      intro z hz
      rcases List.mem_cons.mp ((insertDesc_perm x ys).mem_iff.mp hz) with hz | hz
      · subst hz; omega
      · exact hp.1 z hz
    · rw [show insertDesc x (y :: ys) = x :: y :: ys from by simp [insertDesc, h]]
      rw [List.pairwise_cons]
      refine ⟨?_, List.pairwise_cons.mpr hp⟩
      intro z hz
      rcases List.mem_cons.mp hz with hz | hz
      · subst hz; omega
      · have := hp.1 z hz
        omega

theorem sortDesc_sorted (l : List (Str × Nat)) :
    (sortDesc l).Pairwise (fun a b => b.2 ≤ a.2) := by
  induction l with
  | nil => simp [sortDesc]
  | cons x xs ih => exact insertDesc_sorted x ih

theorem sublist_insertDesc {l' m : List (Str × Nat)} (x : Str × Nat)
    (h : l'.Sublist m) : l'.Sublist (insertDesc x m) := by
  obtain ⟨m1, m2, he, hi⟩ := insertDesc_decomp x m
  rw [hi]
  subst he
  exact h.trans (List.Sublist.append_left (List.sublist_cons_self x m2) m1)

theorem insertDesc_pair_sublist {x b : Str × Nat} :
    ∀ {m : List (Str × Nat)}, m.Pairwise (fun a c => c.2 ≤ a.2) → b ∈ m → b.2 = x.2 →
      ([x, b]).Sublist (insertDesc x m) := by
  intro m
  induction m with
  | nil => intro _ hb _; cases hb
  | cons y ys ih =>
    intro hp hb heq
    rw [List.pairwise_cons] at hp
    by_cases h : x.2 < y.2
    · rw [show insertDesc x (y :: ys) = y :: insertDesc x ys from by simp [insertDesc, h]]
      have hbys : b ∈ ys := by
        rcases List.mem_cons.mp hb with hb | hb
        · subst hb; omega
        · exact hb
      exact (ih hp.2 hbys heq).cons y
    · rw [show insertDesc x (y :: ys) = x :: y :: ys from by simp [insertDesc, h]]
      exact List.Sublist.cons₂ x (List.singleton_sublist.mpr hb)

theorem sortDesc_stable {a b : Str × Nat} (heq : a.2 = b.2) :
    ∀ {l : List (Str × Nat)}, ([a, b]).Sublist l → ([a, b]).Sublist (sortDesc l) := by
  intro l
  induction l with
  | nil => intro h; simp at h
  | cons x xs ih =>
    intro h
    rw [List.sublist_cons_iff] at h
    rcases h with h | ⟨r, hr, hrs⟩
    · exact sublist_insertDesc x (ih h)
    · have ha : a = x ∧ r = [b] := by
        have h1 := congrArg (fun l => l.headI) hr
        have h2 := congrArg (fun l => l.tail) hr
        simp at h1 h2
        exact ⟨h1, h2.symm⟩
      obtain ⟨rfl, rfl⟩ := ha
      have hbmem : b ∈ sortDesc xs :=
        (sortDesc_perm xs).mem_iff.mpr (List.singleton_sublist.mp hrs)
      exact insertDesc_pair_sublist (sortDesc_sorted xs) hbmem heq.symm

theorem normStream_mem_isIndexKey {st : Store}
    (hnorm : ∀ p ∈ st, ∀ e ∈ p.2, isIndexKey (normEntry e) = false)
    {t : Str} (h : t ∈ normStream st) : isIndexKey t = false := by
  unfold normStream at h
  rw [List.mem_filter] at h
  obtain ⟨h1, _⟩ := h
  rw [List.mem_map] at h1
  obtain ⟨e, he, rfl⟩ := h1
  rw [List.mem_flatten] at he
  obtain ⟨l2, hl2, he2⟩ := he
  rw [List.mem_map] at hl2
  obtain ⟨p, hp, rfl⟩ := hl2
  exact hnorm p ((objOrder_perm st).mem_iff.mp hp) e he2

/-- C9 (amended): `mostFrequentEntries(limit)` counts every stored
entry under its trimmed lower-cased form across all dates (skipping
entries that normalize to the empty string), keys the counts in
first-seen order, sorts by count descending with a stable sort and
truncates to the limit, displaying the normalized form — provided the
stored entries are ASCII (JavaScript `toLowerCase` performs full
Unicode case mapping) and no normalized entry text is a canonical
array-index string (otherwise JS object enumeration puts such keys
first, breaking first-seen tie order) or an inherited
`Object.prototype` property name (otherwise `entryCounts[normalized]`
reads the truthy inherited value: the count for such an entry is
corrupted, or the entry is silently dropped through the `__proto__`
setter).  Includes the concrete scenario
`mostFrequentEntries(1) = [("coffee", 2)]`. -/
theorem c9_frequency_amended (st : Store) (limit : Nat)
    (hkeys : ∀ p ∈ st, isIndexKey p.1 = false)
    (hnorm : ∀ p ∈ st, ∀ e ∈ p.2, isIndexKey (normEntry e) = false)
    (_hproto : ∀ p ∈ st, ∀ e ∈ p.2, normEntry e ∉ objProtoNames)
    (_hascii : ∀ p ∈ st, ∀ e ∈ p.2, ∀ c ∈ e, c.toNat < 128) :
    getMostFrequentEntries st limit = (sortDesc (tally st)).take limit ∧
    normStream st = ((st.map Prod.snd).flatten.map normEntry).filter (fun t => ¬ t = []) ∧
    (tally st).map Prod.fst = keepFirsts (normStream st) ∧
    (∀ q ∈ tally st, q.2 = (normStream st).count q.1 ∧ 0 < q.2) ∧
    (sortDesc (tally st)).Pairwise (fun a b => b.2 ≤ a.2) ∧
    (∀ a b : Str × Nat, a.2 = b.2 → ([a, b]).Sublist (tally st) →
      ([a, b]).Sublist (sortDesc (tally st))) ∧
    getMostFrequentEntries coffeeStore 1 = [("coffee".data, 2)] := by
  refine ⟨?_, ?_, tally_keys st, fun q hq => tally_counts st hq, sortDesc_sorted _,
    fun a b he hs => sortDesc_stable he hs, by decide⟩
  · unfold getMostFrequentEntries
    rw [objOrder_eq_self ?hidx]
    case hidx =>
      intro q hq
      have h1 : q.1 ∈ (tally st).map Prod.fst := List.mem_map.mpr ⟨q, hq, rfl⟩
      rw [tally_keys] at h1
      exact normStream_mem_isIndexKey hnorm (keepFirstsAux_subset _ _ h1)
  · unfold normStream
    rw [objOrder_eq_self hkeys]

/-- C9 as stated is false: a store holding the entries "zebra",
"zebra", "7", "7" produces `[("7", 2), ("zebra", 2)]` although "zebra"
is first-seen and counts are tied — JS objects enumerate the
array-index key "7" before the insertion-ordered string key "zebra". -/
theorem c9_frequency_counterexample :
    getMostFrequentEntries c9cexStore 2 = [("7".data, 2), ("zebra".data, 2)] ∧
    ¬ getMostFrequentEntries c9cexStore 2 = [("zebra".data, 2), ("7".data, 2)] :=
  ⟨by decide, by decide⟩

theorem c9_frequency_amended_witness :
    getMostFrequentEntries coffeeStore 1 = (sortDesc (tally coffeeStore)).take 1 ∧
    getMostFrequentEntries coffeeStore 1 = [("coffee".data, 2)] :=
  ⟨(c9_frequency_amended coffeeStore 1 (by decide) (by decide) (by decide)
      (by decide)).1,
   (c9_frequency_amended coffeeStore 1 (by decide) (by decide) (by decide)
      (by decide)).2.2.2.2.2.2⟩

example : calculateLongestStreak c8store = 3 := by decide
example : maxRunLen ((datesWithEntries c8store).map dayNum) = 3 := by decide
example : parseDateKey "2025-02-29".data = none := by decide
example : parseDateKey "2024-02-29".data = some ⟨2024, 2, 29⟩ := by decide
example : toDays ⟨2025, 1, 2⟩ = toDays ⟨2025, 1, 1⟩ + 1 := by decide
example : toDays ⟨2025, 1, 1⟩ = toDays ⟨2024, 12, 31⟩ + 1 := by decide
example : toDays ⟨2024, 3, 1⟩ = toDays ⟨2024, 2, 29⟩ + 1 := by decide

theorem maxRunLen_nil : maxRunLen [] = 0 := rfl

theorem maxRunLen_cons (x : Int) (xs : List Int) :
    maxRunLen (x :: xs) = max (chainPrefixLen (x :: xs)) (maxRunLen xs) := by
  unfold maxRunLen
  rw [List.tails_cons, List.map_cons, List.foldr_cons]

theorem chainPrefixLen_contRun (x : Int) (xs : List Int) :
    chainPrefixLen (x :: xs) = contRun x xs + 1 := by
  induction xs generalizing x with
  | nil => rfl
  | cons y r ih =>
    show (if y - x = 1 then chainPrefixLen (y :: r) + 1 else 1)
      = (if y - x = 1 then contRun y r + 1 else 0) + 1
    by_cases h : y - x = 1
    · rw [if_pos h, if_pos h, ih y]
    · rw [if_neg h, if_neg h]

theorem runPeak_maxRun (xs : List Int) :
    ∀ (p : Int) (c : Nat), 1 ≤ c →
      max c (runPeak p c xs) = max (c + contRun p xs) (maxRunLen xs) := by
  induction xs with
  | nil =>
    intro p c hc
    show max c 0 = max (c + 0) 0
    omega
  | cons x xs2 ih =>
    intro p c hc
    show max c (if x - p = 1 then max (c + 1) (runPeak x (c + 1) xs2)
        else max 1 (runPeak x 1 xs2))
      = max (c + (if x - p = 1 then contRun x xs2 + 1 else 0)) (maxRunLen (x :: xs2))
    rw [maxRunLen_cons, chainPrefixLen_contRun]
    by_cases h : x - p = 1
    · rw [if_pos h, if_pos h]
      have h2 := ih x (c + 1) (by omega)
      omega
    · rw [if_neg h, if_neg h]
      have h2 := ih x 1 (by omega)
      omega

theorem runScan_peak (xs : List Int) :
    ∀ (p : Int) (L c : Nat), 1 ≤ L →
      runScan p L c xs = max L (runPeak p c xs) := by
  induction xs with
  | nil =>
    intro p L c hL
    show L = max L 0
    omega
  | cons x xs2 ih =>
    intro p L c hL
    show (if x - p = 1 then runScan x (max L (c + 1)) (c + 1) xs2
        else runScan x L 1 xs2)
      = max L (if x - p = 1 then max (c + 1) (runPeak x (c + 1) xs2)
          else max 1 (runPeak x 1 xs2))
    by_cases h : x - p = 1
    · rw [if_pos h, if_pos h, ih x (max L (c + 1)) (c + 1) (by omega)]
      omega
    · rw [if_neg h, if_neg h, ih x L 1 hL]
      omega

theorem runScan_maxRunLen (x0 : Int) (xs : List Int) :
    runScan x0 1 1 xs = maxRunLen (x0 :: xs) := by
  rw [runScan_peak xs x0 1 1 (by omega), maxRunLen_cons, chainPrefixLen_contRun]
  have h := runPeak_maxRun xs x0 1 (by omega)
  omega

theorem streakScan_eq_runScan (ds : List Str) :
    ∀ (prev : Str) (pd : Date) (L c : Nat),
      parseDateKey prev = some pd →
      (∀ d ∈ ds, (parseDateKey d).isSome = true) →
      streakScan prev L c ds = runScan (toDays pd : Int) L c (ds.map dayNum) := by
  induction ds with
  | nil => intro prev pd L c _ _; rfl
  | cons d rest ih =>
    intro prev pd L c hp hv
    obtain ⟨x, hx⟩ := Option.isSome_iff_exists.mp (hv d (List.mem_cons_self _ _))
    have hdiff : dayDiff prev d = some ((toDays x : Int) - (toDays pd : Int)) := by
      unfold dayDiff
      rw [hp, hx]
    have hdn : dayNum d = (toDays x : Int) := by
      unfold dayNum
      rw [hx]
      rfl
    have hok : ∀ d2 ∈ rest, (parseDateKey d2).isSome = true :=
      fun d2 h2 => hv d2 (List.mem_cons.mpr (Or.inr h2))
    rw [List.map_cons]
    show (if dayDiff prev d = some 1 then streakScan d (max L (c + 1)) (c + 1) rest
        else streakScan d L 1 rest)
      = (if dayNum d - (toDays pd : Int) = 1 then
          runScan (dayNum d) (max L (c + 1)) (c + 1) (rest.map dayNum)
        else runScan (dayNum d) L 1 (rest.map dayNum))
    rw [hdiff, hdn]
    by_cases h : (toDays x : Int) - (toDays pd : Int) = 1
    · rw [if_pos (by rw [h]), if_pos h, ih d x _ _ hx hok]
    · rw [if_neg (fun hh => h (Option.some.inj hh)), if_neg h, ih d x _ _ hx hok]

theorem digit_bounds {c : Char} (h : c.isDigit = true) :
    48 ≤ c.toNat ∧ c.toNat ≤ 57 := by
  simp [Char.isDigit] at h
  exact ⟨h.1, h.2⟩

theorem digitsVal_lt_pow : ∀ (u : Str), (∀ c ∈ u, c.isDigit = true) →
    digitsVal u < 10 ^ u.length := by
  intro u
  induction u with
  | nil => intro _; simp [digitsVal]
  | cons c rest ih =>
    intro h
    have hc := digit_bounds (h c (List.mem_cons_self _ _))
    have hr := ih (fun c2 h2 => h c2 (List.mem_cons.mpr (Or.inr h2)))
    show (c.toNat - 48) * 10 ^ rest.length + digitsVal rest < 10 ^ (rest.length + 1)
    have h9 : c.toNat - 48 ≤ 9 := by omega
    calc (c.toNat - 48) * 10 ^ rest.length + digitsVal rest
        < (c.toNat - 48) * 10 ^ rest.length + 10 ^ rest.length := by omega
      _ = (c.toNat - 48 + 1) * 10 ^ rest.length := by ring
      _ ≤ 10 * 10 ^ rest.length := Nat.mul_le_mul_right _ (by omega)
      _ = 10 ^ (rest.length + 1) := by ring

theorem lex_digits : ∀ (u u' : Str), u.length = u'.length →
    (∀ c ∈ u, c.isDigit = true) → (∀ c ∈ u', c.isDigit = true) →
    ∀ {v v' : Str}, (u ++ v) < (u' ++ v') →
      digitsVal u < digitsVal u' ∨ (u = u' ∧ v < v') := by
  intro u
  induction u with
  | nil =>
    intro u' hlen _ _ v v' h
    cases u' with
    | nil => exact Or.inr ⟨rfl, h⟩
    | cons c' cu' => simp at hlen
  | cons c cu ih =>
    intro u' hlen hu hu' v v' h
    cases u' with
    | nil => simp at hlen
    | cons c' cu' =>
      have hlen2 : cu.length = cu'.length := by simpa using hlen
      have hcd := digit_bounds (hu c (List.mem_cons_self _ _))
      have hcd' := digit_bounds (hu' c' (List.mem_cons_self _ _))
      have hcu : ∀ x ∈ cu, x.isDigit = true :=
        fun x hx => hu x (List.mem_cons.mpr (Or.inr hx))
      have hcu' : ∀ x ∈ cu', x.isDigit = true :=
        fun x hx => hu' x (List.mem_cons.mpr (Or.inr hx))
      rw [List.cons_append, List.cons_append] at h
      cases h with
      | rel h2 =>
        left
        have hlt : c.toNat < c'.toNat := h2
        have hb := digitsVal_lt_pow cu hcu
        show (c.toNat - 48) * 10 ^ cu.length + digitsVal cu
          < (c'.toNat - 48) * 10 ^ cu'.length + digitsVal cu'
        rw [← hlen2]
        calc (c.toNat - 48) * 10 ^ cu.length + digitsVal cu
            < (c.toNat - 48) * 10 ^ cu.length + 10 ^ cu.length := by omega
          _ = (c.toNat - 48 + 1) * 10 ^ cu.length := by ring
          _ ≤ (c'.toNat - 48) * 10 ^ cu.length :=
            Nat.mul_le_mul_right _ (by omega)
          _ ≤ (c'.toNat - 48) * 10 ^ cu.length + digitsVal cu' := Nat.le_add_right _ _
      | cons h2 =>
        rcases ih cu' hlen2 hcu hcu' h2 with h3 | ⟨h3, h4⟩
        · left
          show (c.toNat - 48) * 10 ^ cu.length + digitsVal cu
            < (c.toNat - 48) * 10 ^ cu'.length + digitsVal cu'
          rw [← hlen2]
          omega
        · right
          rw [h3]
          exact ⟨rfl, h4⟩

theorem parseDateKey_shape {s : Str} {x : Date} (h : parseDateKey s = some x) :
    ∃ a1 a2 a3 a4 b1 b2 c1 c2 : Char,
      s = [a1, a2, a3, a4, '-', b1, b2, '-', c1, c2] ∧
      a1.isDigit = true ∧ a2.isDigit = true ∧ a3.isDigit = true ∧ a4.isDigit = true ∧
      b1.isDigit = true ∧ b2.isDigit = true ∧ c1.isDigit = true ∧ c2.isDigit = true ∧
      x.y = ((digitVal a1 * 10 + digitVal a2) * 10 + digitVal a3) * 10 + digitVal a4 ∧
      x.m = digitVal b1 * 10 + digitVal b2 ∧
      x.d = digitVal c1 * 10 + digitVal c2 ∧
      1 ≤ x.m ∧ x.m ≤ 12 ∧ 1 ≤ x.d ∧ x.d ≤ daysInMonth x.y x.m := by
  by_cases hsh : isDateShape s = true
  case neg =>
    unfold parseDateKey at h
    rw [if_neg hsh] at h
    cases h
  case pos =>
    rcases s with _ | ⟨c1, _ | ⟨c2, _ | ⟨c3, _ | ⟨c4, _ | ⟨c5, _ | ⟨c6, _ | ⟨c7, _ | ⟨c8, _ |
      ⟨c9, _ | ⟨c10, _ | ⟨c11, t⟩⟩⟩⟩⟩⟩⟩⟩⟩⟩⟩ <;>
      simp only [isDateShape] at hsh
    · cases hsh
    · cases hsh
    · cases hsh
    · cases hsh
    · cases hsh
    · cases hsh
    · cases hsh
    · cases hsh
    · cases hsh
    · cases hsh
    case cons.cons.cons.cons.cons.cons.cons.cons.cons.cons.nil =>
      simp only [Bool.and_eq_true, decide_eq_true_eq] at hsh
      obtain ⟨⟨⟨⟨⟨⟨⟨⟨⟨h1, h2⟩, h3⟩, h4⟩, h5⟩, h6⟩, h7⟩, h8⟩, h9⟩, h10⟩ := hsh
      subst h5
      subst h8
      have hsh2 : isDateShape [c1, c2, c3, c4, '-', c6, c7, '-', c9, c10] = true := by
        simp [isDateShape, h1, h2, h3, h4, h6, h7, h9, h10]
      unfold parseDateKey at h
      rw [if_pos hsh2] at h
      simp only [List.getD] at h
      split at h
      · cases h
        exact ⟨c1, c2, c3, c4, c6, c7, c9, c10, rfl, h1, h2, h3, h4, h6, h7, h9, h10,
          rfl, rfl, rfl, by assumption⟩
      · cases h
    · cases hsh

theorem leapsBefore_succ (y : Nat) :
    leapsBefore (y + 1) = leapsBefore y + (if isLeap y then 1 else 0) := by
  cases hb : isLeap y
  · rw [if_neg (by simp [hb])]
    simp only [isLeap, Bool.or_eq_false_iff, Bool.and_eq_false_iff,
      decide_eq_false_iff_not, bne_eq_false_iff_eq] at hb
    unfold leapsBefore
    omega
  · rw [if_pos (by simp [hb])]
    simp only [isLeap, Bool.or_eq_true, Bool.and_eq_true, decide_eq_true_eq,
      bne_iff_ne, ne_eq] at hb
    unfold leapsBefore
    omega

theorem daysBeforeYear_succ (y : Nat) :
    daysBeforeYear (y + 1) = daysBeforeYear y + 365 + (if isLeap y then 1 else 0) := by
  unfold daysBeforeYear
  rw [leapsBefore_succ]
  ring_nf

theorem daysBeforeYear_le {a b : Nat} (h : a ≤ b) :
    daysBeforeYear a ≤ daysBeforeYear b := by
  induction b with
  | zero =>
    have : a = 0 := by omega
    subst this
    exact le_refl _
  | succ n ih =>
    by_cases h2 : a ≤ n
    · have h3 := daysBeforeYear_succ n
      have h4 := ih h2
      split_ifs at h3 <;> omega
    · have : a = n + 1 := by omega
      subst this
      exact le_refl _

theorem daysBeforeMonth_le (leap : Bool) {a b : Nat} (h : a ≤ b) :
    daysBeforeMonth leap a ≤ daysBeforeMonth leap b := by
  induction b with
  | zero =>
    have : a = 0 := by omega
    subst this
    exact le_refl _
  | succ n ih =>
    by_cases h2 : a ≤ n
    · have h3 : daysBeforeMonth leap (n + 1)
          = daysBeforeMonth leap n + daysInMonthB leap n := rfl
      have h4 := ih h2
      omega
    · have : a = n + 1 := by omega
      subst this
      exact le_refl _

theorem daysBeforeMonth_13 (leap : Bool) :
    daysBeforeMonth leap 13 = 365 + (if leap then 1 else 0) := by
  cases leap <;> decide

theorem dayOfYear_le (leap : Bool) {m d : Nat} (hm : m ≤ 12)
    (hd : d ≤ daysInMonthB leap m) :
    daysBeforeMonth leap m + d ≤ 365 + (if leap then 1 else 0) := by
  have h2 : daysBeforeMonth leap (m + 1)
      = daysBeforeMonth leap m + daysInMonthB leap m := rfl
  have h3 := daysBeforeMonth_le leap (show m + 1 ≤ 13 by omega)
  rw [daysBeforeMonth_13] at h3
  omega

theorem toDays_lt {x y : Date}
    (hx : 1 ≤ x.m ∧ x.m ≤ 12 ∧ 1 ≤ x.d ∧ x.d ≤ daysInMonth x.y x.m)
    (hy : 1 ≤ y.m ∧ y.m ≤ 12 ∧ 1 ≤ y.d ∧ y.d ≤ daysInMonth y.y y.m)
    (h : x.y < y.y ∨ (x.y = y.y ∧ (x.m < y.m ∨ (x.m = y.m ∧ x.d < y.d)))) :
    toDays x < toDays y := by
  unfold toDays
  rcases h with h | ⟨hyy, h⟩
  · have hb1 : daysBeforeMonth (isLeap x.y) x.m + x.d
        ≤ 365 + (if isLeap x.y then 1 else 0) :=
      dayOfYear_le _ hx.2.1 hx.2.2.2
    have hs := daysBeforeYear_succ x.y
    have hmono := daysBeforeYear_le (show x.y + 1 ≤ y.y by omega)
    have hpos : 1 ≤ y.d := hy.2.2.1
    omega
  · rcases h with h | ⟨hmm, h⟩
    · rw [hyy]
      have hdd : x.d ≤ daysInMonthB (isLeap y.y) x.m := by
        rw [← hyy]
        exact hx.2.2.2
      have h2 : daysBeforeMonth (isLeap y.y) (x.m + 1)
          = daysBeforeMonth (isLeap y.y) x.m + daysInMonthB (isLeap y.y) x.m := rfl
      have h3 := daysBeforeMonth_le (isLeap y.y) (show x.m + 1 ≤ y.m by omega)
      have hpos : 1 ≤ y.d := hy.2.2.1
      omega
    · rw [hyy, hmm]
      omega

theorem lex_cons_same {a : Char} {v v2 : Str} (h : (a :: v) < (a :: v2)) : v < v2 := by
  cases h with
  | cons h2 => exact h2
  | rel h2 => exact absurd h2 (lt_irrefl a)

theorem digitsVal_four (p q r s : Char) :
    digitsVal [p, q, r, s]
      = ((digitVal p * 10 + digitVal q) * 10 + digitVal r) * 10 + digitVal s := by
  simp [digitsVal, digitVal]
  ring

theorem digitsVal_two (p q : Char) :
    digitsVal [p, q] = digitVal p * 10 + digitVal q := by
  simp [digitsVal, digitVal]

theorem toDays_lt_of_lt {s t : Str} {x y : Date}
    (hs : parseDateKey s = some x) (ht : parseDateKey t = some y)
    (hlt : s < t) : toDays x < toDays y := by
  obtain ⟨a1, a2, a3, a4, b1, b2, c1, c2, hse, ha1, ha2, ha3, ha4, hb1, hb2, hc1, hc2,
    hxy, hxm, hxd, hxv⟩ := parseDateKey_shape hs
  obtain ⟨e1, e2, e3, e4, f1, f2, g1, g2, hte, he1, he2, he3, he4, hf1, hf2, hg1, hg2,
    hyy, hym, hyd, hyv⟩ := parseDateKey_shape ht
  subst hse
  subst hte
  have hlt4 : ([a1, a2, a3, a4] ++ ('-' :: ([b1, b2] ++ '-' :: [c1, c2])))
      < ([e1, e2, e3, e4] ++ ('-' :: ([f1, f2] ++ '-' :: [g1, g2]))) := hlt
  have hduA : ∀ c ∈ [a1, a2, a3, a4], c.isDigit = true := by
    intro c hc
    simp only [List.mem_cons, List.not_mem_nil, or_false] at hc
    rcases hc with rfl | rfl | rfl | rfl
    exacts [ha1, ha2, ha3, ha4]
  have hduE : ∀ c ∈ [e1, e2, e3, e4], c.isDigit = true := by
    intro c hc
    simp only [List.mem_cons, List.not_mem_nil, or_false] at hc
    rcases hc with rfl | rfl | rfl | rfl
    exacts [he1, he2, he3, he4]
  have hduB : ∀ c ∈ [b1, b2], c.isDigit = true := by
    intro c hc
    simp only [List.mem_cons, List.not_mem_nil, or_false] at hc
    rcases hc with rfl | rfl
    exacts [hb1, hb2]
  have hduF : ∀ c ∈ [f1, f2], c.isDigit = true := by
    intro c hc
    simp only [List.mem_cons, List.not_mem_nil, or_false] at hc
    rcases hc with rfl | rfl
    exacts [hf1, hf2]
  have hduC : ∀ c ∈ [c1, c2], c.isDigit = true := by
    intro c hc
    simp only [List.mem_cons, List.not_mem_nil, or_false] at hc
    rcases hc with rfl | rfl
    exacts [hc1, hc2]
  have hduG : ∀ c ∈ [g1, g2], c.isDigit = true := by
    intro c hc
    simp only [List.mem_cons, List.not_mem_nil, or_false] at hc
    rcases hc with rfl | rfl
    exacts [hg1, hg2]
  apply toDays_lt hxv hyv
  rcases lex_digits [a1, a2, a3, a4] [e1, e2, e3, e4] rfl hduA hduE hlt4 with hY | ⟨hYeq, hr1⟩
  · left
    rw [hxy, hyy, ← digitsVal_four, ← digitsVal_four]
    exact hY
  · right
    have hyeq : x.y = y.y := by
      rw [hxy, hyy, ← digitsVal_four, ← digitsVal_four, hYeq]
    refine ⟨hyeq, ?_⟩
    have hr2 : ([b1, b2] ++ '-' :: [c1, c2]) < ([f1, f2] ++ '-' :: [g1, g2]) :=
      lex_cons_same hr1
    rcases lex_digits [b1, b2] [f1, f2] rfl hduB hduF hr2 with hM | ⟨hMeq, hr3⟩
    · left
      rw [hxm, hym, ← digitsVal_two, ← digitsVal_two]
      exact hM
    · right
      have hmeq : x.m = y.m := by
        rw [hxm, hym, ← digitsVal_two, ← digitsVal_two, hMeq]
      refine ⟨hmeq, ?_⟩
      have hr4 : ([c1, c2] ++ ([] : Str)) < ([g1, g2] ++ ([] : Str)) := by
        simpa using lex_cons_same hr3
      rcases lex_digits [c1, c2] [g1, g2] rfl hduC hduG hr4 with hD | ⟨_, hr5⟩
      · rw [hxd, hyd, ← digitsVal_two, ← digitsVal_two]
        exact hD
      · exact absurd hr5 (by decide)

theorem insertLex_perm (s : Str) (l : List Str) : (insertLex s l).Perm (s :: l) := by
  induction l with
  | nil => exact List.Perm.refl _
  | cons t ts ih =>
    by_cases h : lexLt t s
    · rw [show insertLex s (t :: ts) = t :: insertLex s ts from by simp [insertLex, h]]
      exact (ih.cons t).trans (List.Perm.swap s t ts)
    · rw [show insertLex s (t :: ts) = s :: t :: ts from by simp [insertLex, h]]

theorem sortLex_perm (l : List Str) : (sortLex l).Perm l := by
  induction l with
  | nil => exact List.Perm.refl _
  | cons s ss ih => exact (insertLex_perm s (sortLex ss)).trans (ih.cons s)

theorem insertLex_sorted (s : Str) :
    ∀ {m : List Str}, m.Pairwise (· ≤ ·) → (insertLex s m).Pairwise (· ≤ ·) := by
  intro m
  induction m with
  | nil => intro _; simp [insertLex]
  | cons t ts ih =>
    intro hp
    rw [List.pairwise_cons] at hp
    by_cases h : lexLt t s
    · rw [show insertLex s (t :: ts) = t :: insertLex s ts from by simp [insertLex, h]]
      rw [List.pairwise_cons]
      refine ⟨?_, ih hp.2⟩
      intro z hz
      rcases List.mem_cons.mp ((insertLex_perm s ts).mem_iff.mp hz) with hz | hz
      · subst hz
        exact le_of_lt (of_decide_eq_true h)
      · exact hp.1 z hz
    · rw [show insertLex s (t :: ts) = s :: t :: ts from by simp [insertLex, h]]
      have hst : s ≤ t := by
        have h2 : ¬ (t < s) := by
          intro hlt2
          exact h (decide_eq_true hlt2)
        exact not_lt.mp h2
      rw [List.pairwise_cons]
      refine ⟨?_, List.pairwise_cons.mpr hp⟩
      intro z hz
      rcases List.mem_cons.mp hz with hz | hz
      · subst hz
        exact hst
      · exact le_trans hst (hp.1 z hz)

theorem sortLex_sorted (l : List Str) : (sortLex l).Pairwise (· ≤ ·) := by
  induction l with
  | nil => simp [sortLex]
  | cons s ss ih => exact insertLex_sorted s ih

theorem datesWithEntries_sub {st : Store} {d : Str} (h : d ∈ datesWithEntries st) :
    d ∈ st.map Prod.fst := by
  unfold datesWithEntries at h
  have h2 := (sortLex_perm _).mem_iff.mp h
  rw [List.mem_filter] at h2
  exact ((objOrder_perm st).map Prod.fst).mem_iff.mp h2.1

theorem datesWithEntries_nodup {st : Store} (hnd : (st.map Prod.fst).Nodup) :
    (datesWithEntries st).Nodup := by
  unfold datesWithEntries
  rw [(sortLex_perm _).nodup_iff]
  exact (((objOrder_perm st).map Prod.fst).nodup_iff.mpr hnd).filter _

theorem datesWithEntries_pairwise_lt {st : Store}
    (hnd : (st.map Prod.fst).Nodup) :
    (datesWithEntries st).Pairwise (· < ·) := by
  have h1 := sortLex_sorted
    (((objOrder st).map Prod.fst).filter (fun d => hasEntriesOn st d))
  have h2 := datesWithEntries_nodup hnd
  unfold datesWithEntries at h2 ⊢
  have h3 := h1.and h2
  exact h3.imp (fun hab => lt_of_le_of_ne hab.1 hab.2)

theorem dayNum_pairwise_lt {st : Store}
    (hnd : (st.map Prod.fst).Nodup)
    (hv2 : ∀ d ∈ datesWithEntries st, (parseDateKey d).isSome = true) :
    ((datesWithEntries st).map dayNum).Pairwise (· < ·) := by
  rw [List.pairwise_map]
  refine (datesWithEntries_pairwise_lt hnd).imp_of_mem ?_
  intro a b ha hb hab
  obtain ⟨xa, hxa⟩ := Option.isSome_iff_exists.mp (hv2 a ha)
  obtain ⟨xb, hxb⟩ := Option.isSome_iff_exists.mp (hv2 b hb)
  have := toDays_lt_of_lt hxa hxb hab
  unfold dayNum
  rw [hxa, hxb]
  simpa using this

/-- C8: under pairwise-distinct, calendar-valid canonical date keys,
`longestStreak` equals the maximum run length over the
ascending-sorted day numbers of the dates having at least one entry,
where a run extends exactly when two adjacent sorted dates differ by
one calendar day; the sorted day-number list is strictly ascending,
zero dates yield 0, one date yields 1, and entries on 01-01, 01-02,
01-03 and 01-10 yield 3. -/
theorem c8_longest_streak (st : Store)
    (hnd : (st.map Prod.fst).Nodup)
    (hvalid : ∀ p ∈ st, (parseDateKey p.1).isSome = true) :
    calculateLongestStreak st = maxRunLen ((datesWithEntries st).map dayNum) ∧
    ((datesWithEntries st).map dayNum).Pairwise (· < ·) ∧
    (datesWithEntries st = [] → calculateLongestStreak st = 0) ∧
    (∀ d0, datesWithEntries st = [d0] → calculateLongestStreak st = 1) ∧
    calculateLongestStreak c8store = 3 := by
  have hv2 : ∀ d ∈ datesWithEntries st, (parseDateKey d).isSome = true := by
    intro d hd
    obtain ⟨p, hp, rfl⟩ := List.mem_map.mp (datesWithEntries_sub hd)
    exact hvalid p hp
  refine ⟨?_, dayNum_pairwise_lt hnd hv2, ?_, ?_, by decide⟩
  · unfold calculateLongestStreak
    rcases hds : datesWithEntries st with _ | ⟨d0, _ | ⟨d1, rest2⟩⟩
    · rfl
    · rfl
    · have hd0 : d0 ∈ datesWithEntries st := by
        rw [hds]
        exact List.mem_cons_self _ _
      obtain ⟨x0, hx0⟩ := Option.isSome_iff_exists.mp (hv2 d0 hd0)
      have hrest : ∀ d2 ∈ d1 :: rest2, (parseDateKey d2).isSome = true := by
        intro d2 h2
        refine hv2 d2 ?_
        rw [hds]
        exact List.mem_cons.mpr (Or.inr h2)
      show streakScan d0 1 1 (d1 :: rest2)
        = maxRunLen (List.map dayNum (d0 :: d1 :: rest2))
      rw [streakScan_eq_runScan (d1 :: rest2) d0 x0 1 1 hx0 hrest,
        runScan_maxRunLen, List.map_cons]
      have hdn : dayNum d0 = (toDays x0 : Int) := by
        unfold dayNum
        rw [hx0]
        rfl
      rw [List.map_cons, List.map_cons, hdn]
  · intro h
    unfold calculateLongestStreak
    rw [h]
  · intro d0 h
    unfold calculateLongestStreak
    rw [h]

theorem c8_longest_streak_witness :
    calculateLongestStreak c8store
      = maxRunLen ((datesWithEntries c8store).map dayNum) ∧
    calculateLongestStreak c8store = 3 :=
  ⟨(c8_longest_streak c8store (by decide) (by decide)).1,
   (c8_longest_streak c8store (by decide) (by decide)).2.2.2.2⟩
